import Mathlib

/-!
Verification development for the `bigfloat` package: elementary operations
(AGM, pi, Log, Exp, Pow, Round) over arbitrary-precision binary floats.

The underlying float engine is Go's `math/big.Float`: a value is a sign bit,
a mantissa of `prec` bits normalised into `[1/2, 1)`, and an unbounded binary
exponent, together with a rounding mode.  We embed a finite nonzero value as
a natural mantissa `mant` with `2^(prec-1) ≤ mant < 2^prec` and an exponent
`exp : ℤ`, denoting the magnitude `mant · 2^(exp - prec)`; zero and infinity
are separate forms carrying a sign bit.  The engine's arithmetic is modelled
exactly: each operation computes the mathematically exact result and rounds
it to the receiver's precision according to the receiver's rounding mode,
which is the documented behaviour of `big.Float`.
-/

namespace Bigfloat

/-- Rounding modes of the float engine (Go `big.RoundingMode`). -/
inductive RMode where
  | toNearestEven
  | toNearestAway
  | toZero
  | awayFromZero
  | toNegativeInf
  | toPositiveInf
  deriving DecidableEq, Repr

/-- Form of a float value: signed zero, finite nonzero, or signed infinity. -/
inductive Form where
  | zero
  | finite
  | inf
  deriving DecidableEq, Repr

/-- Embedded `big.Float`: form, sign bit, mantissa, exponent, precision and
rounding mode.  For a finite value the magnitude is `mant · 2^(exp - prec)`
with `2^(prec-1) ≤ mant < 2^prec`, matching Go's normalisation of the
mantissa into `[1/2, 1)` times `2^exp`. -/
structure BF where
  form : Form
  neg : Bool
  mant : ℕ
  exp : ℤ
  prec : ℕ
  mode : RMode
  deriving DecidableEq, Repr

/-- Bit-length helper: halving loop with explicit fuel. -/
def bitLenLoop : ℕ → ℕ → ℕ
  | 0, _ => 0
  | f + 1, n => if n = 0 then 0 else bitLenLoop f (n / 2) + 1

/-- Bit-length helper: strip 64-bit chunks with explicit fuel. -/
def bitLenBig : ℕ → ℕ → ℕ
  | 0, _ => 0
  | f + 1, n => if n < 2 ^ 64 then bitLenLoop 64 n else bitLenBig f (n / 2 ^ 64) + 64

/-- Number of binary digits of `n` (0 for 0): `2^(bitLen n - 1) ≤ n < 2^(bitLen n)`
for positive `n`. -/
def bitLen (n : ℕ) : ℕ := bitLenBig n n

theorem bitLenLoop_spec : ∀ f n, 1 ≤ n → n < 2 ^ f →
    2 ^ (bitLenLoop f n - 1) ≤ n ∧ n < 2 ^ bitLenLoop f n ∧ 1 ≤ bitLenLoop f n := by
  intro f
  induction f with
  | zero => intro n h1 h2; simp at h2; omega
  | succ f ih =>
    intro n h1 h2
    unfold bitLenLoop
    have hn : ¬(n = 0) := by omega
    simp only [hn, if_false]
    by_cases hd : n / 2 = 0
    · have : n = 1 := by omega
      subst this
      rw [hd]
      unfold bitLenLoop
      cases f <;> simp
    · have hd1 : 1 ≤ n / 2 := by omega
      have hdf : n / 2 < 2 ^ f := by
        have : n < 2 * 2 ^ f := by
          calc n < 2 ^ (f + 1) := h2
          _ = 2 * 2 ^ f := by ring
        omega
      obtain ⟨hl, hr, hone⟩ := ih (n / 2) hd1 hdf
      refine ⟨?_, ?_, by omega⟩
      · have h3 : 2 ^ (bitLenLoop f (n / 2) - 1 + 1) = 2 * 2 ^ (bitLenLoop f (n / 2) - 1) := by
          ring
        calc 2 ^ (bitLenLoop f (n / 2) + 1 - 1) = 2 * 2 ^ (bitLenLoop f (n / 2) - 1) := by
              rw [← h3]; congr 1; omega
        _ ≤ n := by omega
      · calc n < 2 * 2 ^ bitLenLoop f (n / 2) := by omega
        _ = 2 ^ (bitLenLoop f (n / 2) + 1) := by ring

theorem bitLenBig_spec : ∀ f n, 1 ≤ n → n ≤ f →
    2 ^ (bitLenBig f n - 1) ≤ n ∧ n < 2 ^ bitLenBig f n ∧ 1 ≤ bitLenBig f n := by
  intro f
  induction f with
  | zero => intro n h1 h2; omega
  | succ f ih =>
    intro n h1 h2
    unfold bitLenBig
    by_cases hs : n < 2 ^ 64
    · simp only [hs, if_true]
      exact bitLenLoop_spec 64 n h1 hs
    · simp only [hs, if_false]
      have hbig : 2 ^ 64 ≤ n := by omega
      have hd1 : 1 ≤ n / 2 ^ 64 := (Nat.one_le_div_iff (by positivity)).mpr hbig
      have hdf : n / 2 ^ 64 ≤ f := by
        have h3 : n / 2 ^ 64 < n := Nat.div_lt_self (by omega) (by norm_num)
        omega
      obtain ⟨hl, hr, hone⟩ := ih (n / 2 ^ 64) hd1 hdf
      refine ⟨?_, ?_, by omega⟩
      · calc 2 ^ (bitLenBig f (n / 2 ^ 64) + 64 - 1)
            = 2 ^ (bitLenBig f (n / 2 ^ 64) - 1) * 2 ^ 64 := by
              rw [← pow_add]; congr 1; omega
        _ ≤ n / 2 ^ 64 * 2 ^ 64 := by
              exact Nat.mul_le_mul_right _ hl
        _ ≤ n := Nat.div_mul_le_self n _
      · have h4 : n < (n / 2 ^ 64 + 1) * 2 ^ 64 :=
          (Nat.div_lt_iff_lt_mul (by positivity)).mp (Nat.lt_succ_self _)
        calc n < (n / 2 ^ 64 + 1) * 2 ^ 64 := h4
        _ ≤ 2 ^ bitLenBig f (n / 2 ^ 64) * 2 ^ 64 := by
              exact Nat.mul_le_mul_right _ (by omega)
        _ = 2 ^ (bitLenBig f (n / 2 ^ 64) + 64) := by rw [← pow_add]

theorem bitLen_spec (n : ℕ) (h : 1 ≤ n) :
    2 ^ (bitLen n - 1) ≤ n ∧ n < 2 ^ bitLen n ∧ 1 ≤ bitLen n :=
  bitLenBig_spec n n h le_rfl

theorem bitLen_unique (n : ℕ) (b : ℕ) (h1 : 2 ^ (b - 1) ≤ n) (h2 : n < 2 ^ b)
    (h3 : 1 ≤ b) : bitLen n = b := by
  have hn : 1 ≤ n := le_trans (Nat.one_le_two_pow) h1
  obtain ⟨hl, hr, ho⟩ := bitLen_spec n hn
  have hA : b - 1 < bitLen n :=
    (Nat.pow_lt_pow_iff_right (by norm_num)).mp (lt_of_le_of_lt h1 hr)
  have hB : bitLen n - 1 < b :=
    (Nat.pow_lt_pow_iff_right (by norm_num)).mp (lt_of_le_of_lt hl h2)
  omega

/-- Integer square root by binary-digit recursion with explicit fuel. -/
def isqrtGo : ℕ → ℕ → ℕ
  | 0, _ => 0
  | k + 1, n =>
    let s := 2 * isqrtGo k (n / 4)
    if (s + 1) ^ 2 ≤ n then s + 1 else s

/-- Integer square root: the unique `r` with `r^2 ≤ n < (r+1)^2`. -/
def isqrt (n : ℕ) : ℕ := isqrtGo (bitLen n / 2 + 1) n

theorem isqrtGo_spec : ∀ k n, n < 4 ^ k →
    (isqrtGo k n) ^ 2 ≤ n ∧ n < (isqrtGo k n + 1) ^ 2 := by
  intro k
  induction k with
  | zero => intro n h; simp at h; subst h; simp [isqrtGo]
  | succ k ih =>
    intro n h
    have hd : n / 4 < 4 ^ k := by
      have : n < 4 * 4 ^ k := by
        calc n < 4 ^ (k + 1) := h
        _ = 4 * 4 ^ k := by ring
      omega
    obtain ⟨hl, hr⟩ := ih (n / 4) hd
    unfold isqrtGo
    simp only
    set s := isqrtGo k (n / 4) with hs
    have h1 : (2 * s) ^ 2 ≤ n := by
      have : 4 * s ^ 2 ≤ 4 * (n / 4) := by omega
      calc (2 * s) ^ 2 = 4 * s ^ 2 := by ring
      _ ≤ 4 * (n / 4) := this
      _ ≤ n := by omega
    have h2 : n < (2 * s + 2) ^ 2 := by
      have : n / 4 + 1 ≤ (s + 1) ^ 2 := hr
      have h3 : n < 4 * (n / 4 + 1) := by omega
      calc n < 4 * (n / 4 + 1) := h3
      _ ≤ 4 * (s + 1) ^ 2 := by omega
      _ = (2 * s + 2) ^ 2 := by ring
    by_cases hc : (2 * s + 1) ^ 2 ≤ n
    · rw [if_pos hc]
      exact ⟨hc, by calc n < (2 * s + 2) ^ 2 := h2
        _ = (2 * s + 1 + 1) ^ 2 := by ring⟩
    · rw [if_neg hc]
      exact ⟨h1, by omega⟩

theorem isqrt_spec (n : ℕ) : (isqrt n) ^ 2 ≤ n ∧ n < (isqrt n + 1) ^ 2 := by
  apply isqrtGo_spec
  rcases Nat.eq_zero_or_pos n with h | h
  · subst h; positivity
  · obtain ⟨_, hr, _⟩ := bitLen_spec n h
    calc n < 2 ^ bitLen n := hr
    _ ≤ 2 ^ (2 * (bitLen n / 2 + 1)) := Nat.pow_le_pow_right (by norm_num) (by omega)
    _ = 4 ^ (bitLen n / 2 + 1) := by
        rw [pow_mul]; norm_num

/-- Power of two as a rational, for an integer exponent.  Used only to state
value-level properties; computations stay in `ℕ`/`ℤ`. -/
def qpow2 (n : ℤ) : ℚ :=
  if 0 ≤ n then ((2 ^ n.toNat : ℕ) : ℚ) else ((2 ^ (-n).toNat : ℕ) : ℚ)⁻¹

theorem qpow2_eq_zpow (n : ℤ) : qpow2 n = (2 : ℚ) ^ n := by
  unfold qpow2
  split
  · rename_i h
    push_cast
    rw [← zpow_natCast, Int.toNat_of_nonneg h]
  · rename_i h
    have hm : (((-n).toNat : ℤ)) = -n := Int.toNat_of_nonneg (by omega)
    calc ((2 ^ (-n).toNat : ℕ) : ℚ)⁻¹ = ((2 : ℚ) ^ (-n).toNat)⁻¹ := by push_cast; ring
    _ = ((2 : ℚ) ^ (((-n).toNat : ℤ)))⁻¹ := by rw [zpow_natCast]
    _ = ((2 : ℚ) ^ (-n))⁻¹ := by rw [hm]
    _ = (((2 : ℚ) ^ n)⁻¹)⁻¹ := by rw [zpow_neg]
    _ = (2 : ℚ) ^ n := inv_inv _

theorem qpow2_pos (n : ℤ) : 0 < qpow2 n := by
  rw [qpow2_eq_zpow]; exact zpow_pos (by norm_num) n

/-- Rational value of a float: 0 for zero form, signed `mant · 2^(exp - prec)`
for finite form; infinities are given value 0 here and must be examined via
their `form`/`neg` fields. -/
def BF.toQ (x : BF) : ℚ :=
  match x.form with
  | .zero => 0
  | .inf => 0
  | .finite => (if x.neg then -1 else 1) * (x.mant : ℚ) * qpow2 (x.exp - (x.prec : ℤ))

/-- Mantissa increment decision for rounding: `n` is the truncated mantissa,
`hi` compares the discarded fraction with one half, and `ex` tells whether the
discarded fraction is zero (the value is exact).  `negb` is the sign bit of
the value, directing the `toNegativeInf`/`toPositiveInf` modes.  Ties under
`toNearestEven` go to the even mantissa; under `toNearestAway`, away from
zero.  This matches the documented rounding of `big.Float`. -/
def roundUp (mode : RMode) (negb : Bool) (n : ℕ) (hi : Ordering) (ex : Bool) : Bool :=
  match mode with
  | .toNearestEven =>
      match hi with
      | .lt => false
      | .gt => true
      | .eq => decide (n % 2 = 1)
  | .toNearestAway => decide (hi ≠ Ordering.lt)
  | .toZero => false
  | .awayFromZero => !ex
  | .toNegativeInf => negb && !ex
  | .toPositiveInf => !negb && !ex

/-- Round the magnitude `(D + σ) · 2^E` — where `σ = 0` if `sticky = false`
and `σ ∈ (0,1)` otherwise — to `p` mantissa bits under `mode`/`negb`.
Returns the pair `(m, e)` of the normalised result: value `m · 2^(e - p)`
with `2^(p-1) ≤ m < 2^p` (for `D > 0`).  When `sticky` is set the callers
arrange `bitLen D ≥ p + 1`, so the tie comparison is exact. -/
def roundCore (mode : RMode) (negb : Bool) (p : ℕ) (D : ℕ) (sticky : Bool) (E : ℤ) :
    ℕ × ℤ :=
  let b := bitLen D
  if b ≤ p then
    (D * 2 ^ (p - b), E + b)
  else
    let k := b - p
    let n := D / 2 ^ k
    let r := D % 2 ^ k
    let ex : Bool := decide (r = 0) && !sticky
    let hi : Ordering :=
      if r < 2 ^ (k - 1) then .lt
      else if r = 2 ^ (k - 1) && !sticky then .eq
      else .gt
    let m := if roundUp mode negb n hi ex then n + 1 else n
    if m = 2 ^ p then (2 ^ (p - 1), E + b + 1) else (m, E + b)

/-- Build a finite float of precision `p` and mode `mode` from a rounded
mantissa/exponent pair as returned by `roundCore`. -/
def mkFin (mode : RMode) (p : ℕ) (negb : Bool) (me : ℕ × ℤ) : BF :=
  ⟨.finite, negb, me.1, me.2, p, mode⟩

/-- Signed zero with the given precision and mode. -/
def mkZero (mode : RMode) (p : ℕ) (negb : Bool) : BF :=
  ⟨.zero, negb, 0, 0, p, mode⟩

/-- Signed infinity with the given precision and mode. -/
def mkInf (mode : RMode) (p : ℕ) (negb : Bool) : BF :=
  ⟨.inf, negb, 0, 0, p, mode⟩

/-- Set a float of precision `p`/mode `mode` to the signed dyadic value
`±M · 2^E` (σ-free), rounding as needed; a zero magnitude gives a zero of the
same sign. -/
def ofDyadic (mode : RMode) (p : ℕ) (negb : Bool) (M : ℕ) (E : ℤ) : BF :=
  if M = 0 then mkZero mode p negb
  else mkFin mode p negb (roundCore mode negb p M false E)

namespace BF

/-- Go `Float.Signbit`. -/
def Signbit (x : BF) : Bool := x.neg

/-- Go `Float.Sign`: -1, 0, or +1. -/
def Sign (x : BF) : ℤ :=
  match x.form with
  | .zero => 0
  | _ => if x.neg then -1 else 1

/-- Go `Float.IsInf`. -/
def IsInf (x : BF) : Bool := decide (x.form = Form.inf)

/-- Go `Float.Prec`. -/
def Prec (x : BF) : ℕ := x.prec

/-- Go `Float.Mode`. -/
def Mode (x : BF) : RMode := x.mode

/-- Go `Float.MantExp` (exponent part only; both zero and infinity report 0). -/
def MantExp (x : BF) : ℤ :=
  match x.form with
  | .finite => x.exp
  | _ => 0

/-- Go `Float.IsInt`: whether the value is an integer (signed zeros are,
infinities are not). -/
def IsInt (x : BF) : Bool :=
  match x.form with
  | .zero => true
  | .inf => false
  | .finite =>
    if x.exp ≤ 0 then false
    else if (x.prec : ℤ) ≤ x.exp then true
    else decide (x.mant % 2 ^ (x.prec - x.exp.toNat) = 0)

/-- Magnitude of a finite float as an unnormalised dyadic pair `(M, E)`
denoting `M · 2^E`. -/
def dy (x : BF) : ℕ × ℤ := (x.mant, x.exp - (x.prec : ℤ))

/-- Compare two dyadic magnitudes `M1·2^E1` and `M2·2^E2`. -/
def cmpDy (M1 : ℕ) (E1 : ℤ) (M2 : ℕ) (E2 : ℤ) : Ordering :=
  if E1 ≤ E2 then compare M1 (M2 * 2 ^ (E2 - E1).toNat)
  else compare (M1 * 2 ^ (E1 - E2).toNat) M2

/-- Go `Float.Cmp`, returning -1, 0 or +1.  `-Inf < finite < +Inf`; both
zeros compare equal to each other and order against nonzero values by sign. -/
def Cmp (x y : BF) : ℤ :=
  let ordInt : Ordering → ℤ := fun o =>
    match o with
    | .lt => -1
    | .eq => 0
    | .gt => 1
  -- rank values by sign class: -inf, negative finite, zero, positive finite, +inf
  let cls : BF → ℤ := fun v =>
    match v.form with
    | .zero => 0
    | .inf => if v.neg then -2 else 2
    | .finite => if v.neg then -1 else 1
  if cls x < cls y then -1
  else if cls y < cls x then 1
  else
    match x.form, y.form with
    | .finite, .finite =>
      if x.neg then
        ordInt (cmpDy y.mant (y.exp - (y.prec : ℤ)) x.mant (x.exp - (x.prec : ℤ)))
      else
        ordInt (cmpDy x.mant (x.exp - (x.prec : ℤ)) y.mant (y.exp - (y.prec : ℤ)))
    | _, _ => 0

/-- Go `Float.SetMode` (value unchanged). -/
def SetMode (x : BF) (m : RMode) : BF := { x with mode := m }

/-- Go `Float.SetInf`. -/
def SetInf (x : BF) (signb : Bool) : BF :=
  { x with form := .inf, neg := signb, mant := 0, exp := 0 }

/-- Go `Float.Set`: round the value of `x` into `z`'s precision using `z`'s
mode; if `z`'s precision is 0 it first adopts `x`'s precision (making the
assignment exact). -/
def Set (z x : BF) : BF :=
  let p := if z.prec = 0 then x.prec else z.prec
  match x.form with
  | .zero => ⟨.zero, x.neg, 0, 0, p, z.mode⟩
  | .inf => ⟨.inf, x.neg, 0, 0, p, z.mode⟩
  | .finite =>
    if z.prec = 0 then ⟨.finite, x.neg, x.mant, x.exp, x.prec, z.mode⟩
    else mkFin z.mode p x.neg (roundCore z.mode x.neg p x.mant false (x.exp - (x.prec : ℤ)))

/-- Go `Float.SetPrec`: change the precision, rounding the stored value if it
no longer fits; precision 0 maps finite values to signed zero. -/
def SetPrec (z : BF) (p : ℕ) : BF :=
  if p = 0 then
    match z.form with
    | .finite => ⟨.zero, z.neg, 0, 0, 0, z.mode⟩
    | _ => { z with prec := 0, mant := 0, exp := 0 }
  else
    match z.form with
    | .finite => mkFin z.mode p z.neg (roundCore z.mode z.neg p z.mant false (z.exp - (z.prec : ℤ)))
    | _ => { z with prec := p }

/-- Go `Float.Copy`: `z` becomes an exact copy of `x` (value, precision and
mode). -/
def Copy (_z x : BF) : BF := x

/-- Go `Float.Neg` in the in-place pattern `z.Neg(z)`: flip the sign. -/
def NegSelf (z : BF) : BF := { z with neg := !z.neg }

/-- Go `Float.SetMantExp` restricted to the use `o.SetMantExp(o, exp+n)`
after `exp := z.MantExp(o)` — i.e. `quicksh`: multiply by `2^n` exactly,
keeping `z`'s precision and mode.  Zeros and infinities pass through. -/
def shiftExp (z : BF) (n : ℤ) : BF :=
  match z.form with
  | .finite => { z with exp := z.exp + n }
  | _ => z

/-- Magnitude mantissa of a possibly-zero operand (0 for the zero form). -/
def magM (x : BF) : ℕ :=
  match x.form with
  | .finite => x.mant
  | _ => 0

/-- Magnitude exponent of an operand, in the unnormalised pair convention. -/
def magE (x : BF) : ℤ := x.exp - (x.prec : ℤ)

/-- Exact signed addition of two finite-or-zero operands followed by rounding
into precision `p` under `mode`.  An exact zero result is positive except when
rounding `toNegativeInf` (Go `Float.Add` documentation). -/
def addCore (mode : RMode) (p : ℕ) (n1 : Bool) (M1 : ℕ) (E1 : ℤ)
    (n2 : Bool) (M2 : ℕ) (E2 : ℤ) : BF :=
  let E0 := min E1 E2
  let I1 : ℤ := (if n1 then -1 else 1) * M1 * 2 ^ (E1 - E0).toNat
  let I2 : ℤ := (if n2 then -1 else 1) * M2 * 2 ^ (E2 - E0).toNat
  let S := I1 + I2
  if S = 0 then mkZero mode p (decide (mode = RMode.toNegativeInf))
  else mkFin mode p (decide (S < 0)) (roundCore mode (decide (S < 0)) p S.natAbs false E0)

/-- Go `Float.Add`: `z.Add(x, y)` rounds the exact sum into `z`'s precision
(or the larger operand precision if `z`'s is 0) using `z`'s mode.  Adding two
zeros keeps the IEEE sign conventions; adding infinities of opposite sign
panics in Go (modelled by an arbitrary infinity, unreachable in the verified
paths). -/
def Add (z x y : BF) : BF :=
  let p := if z.prec = 0 then max x.prec y.prec else z.prec
  match x.form, y.form with
  | .inf, .inf => mkInf z.mode p x.neg
  | .inf, _ => mkInf z.mode p x.neg
  | _, .inf => mkInf z.mode p y.neg
  | .zero, .zero =>
    mkZero z.mode p (if x.neg = y.neg then x.neg else decide (z.mode = RMode.toNegativeInf))
  | _, _ => addCore z.mode p x.neg (magM x) (magE x) y.neg (magM y) (magE y)

/-- Go `Float.Sub`: subtraction is addition of the sign-flipped second
operand, including for signed zeros and infinities. -/
def Sub (z x y : BF) : BF := Add z x { y with neg := !y.neg }

/-- Go `Float.Mul`: the exact product rounded into `z`'s precision (or the
larger operand precision if `z`'s is 0) using `z`'s mode; the sign is the XOR
of the operand signs.  `0 × ∞` panics in Go (modelled by an infinity,
unreachable in the verified paths). -/
def Mul (z x y : BF) : BF :=
  let p := if z.prec = 0 then max x.prec y.prec else z.prec
  let sgn := xor x.neg y.neg
  match x.form, y.form with
  | .inf, _ => mkInf z.mode p sgn
  | _, .inf => mkInf z.mode p sgn
  | .zero, _ => mkZero z.mode p sgn
  | _, .zero => mkZero z.mode p sgn
  | .finite, .finite =>
    mkFin z.mode p sgn (roundCore z.mode sgn p (x.mant * y.mant)
      false ((x.exp - (x.prec : ℤ)) + (y.exp - (y.prec : ℤ))))

/-- Go `Float.Quo`: the exact quotient rounded into `z`'s precision (or the
larger operand precision if `z`'s is 0) using `z`'s mode.  `x/±0 = ±Inf` and
`x/±Inf = ±0` for finite nonzero `x`; `0/0` and `∞/∞` panic in Go (modelled
by zero and infinity respectively, unreachable in the verified paths).  The
quotient mantissa is computed by integer division with `p + 2 + bitLen my`
extra bits, the nonzero remainder feeding the sticky bit. -/
def Quo (z x y : BF) : BF :=
  let p := if z.prec = 0 then max x.prec y.prec else z.prec
  let sgn := xor x.neg y.neg
  match x.form, y.form with
  | .zero, .zero => mkZero z.mode p sgn
  | .inf, .inf => mkInf z.mode p sgn
  | .zero, _ => mkZero z.mode p sgn
  | .inf, _ => mkInf z.mode p sgn
  | _, .zero => mkInf z.mode p sgn
  | _, .inf => mkZero z.mode p sgn
  | .finite, .finite =>
    let s := p + 2 + bitLen y.mant
    let N := x.mant * 2 ^ s
    mkFin z.mode p sgn (roundCore z.mode sgn p (N / y.mant) (decide (N % y.mant ≠ 0))
      ((x.exp - (x.prec : ℤ)) - (y.exp - (y.prec : ℤ)) - (s : ℤ)))

/-- Go `Float.Sqrt`: `z.Sqrt(x)` rounds the exact square root of `x` into
`z`'s precision (or `x`'s if `z`'s is 0) using `z`'s mode.  `√±0 = ±0`,
`√+∞ = +∞`; a negative operand panics in Go (modelled by returning the
operand, unreachable in the verified paths).  The root mantissa is an integer
square root carrying `p + 2` extra digit pairs, inexactness feeding the
sticky bit. -/
def Sqrt (z x : BF) : BF :=
  let p := if z.prec = 0 then x.prec else z.prec
  match x.form with
  | .zero => ⟨.zero, x.neg, 0, 0, p, z.mode⟩
  | .inf => if x.neg then x else ⟨.inf, false, 0, 0, p, z.mode⟩
  | .finite =>
    if x.neg then x
    else
      let t := x.exp - (x.prec : ℤ)
      let evn := decide (t % 2 = 0)
      let N := (if evn then x.mant else 2 * x.mant) * 4 ^ (p + 2)
      let Ev := (if evn then t / 2 else (t - 1) / 2) - ((p : ℤ) + 2)
      let n := isqrt N
      mkFin z.mode p false (roundCore z.mode false p n (decide (n ^ 2 ≠ N)) Ev)

end BF

/-- The package-level global `gzero`: a never-modified zero `big.Float`. -/
def gzero : BF := ⟨.zero, false, 0, 0, 0, .toNearestEven⟩

/-- `ghalfp = *big.NewFloat(0.5)`. -/
def ghalfp : BF := ⟨.finite, false, 2 ^ 52, 0, 53, .toNearestEven⟩

/-- `ghalfm = *big.NewFloat(-0.5)`. -/
def ghalfm : BF := ⟨.finite, true, 2 ^ 52, 0, 53, .toNearestEven⟩

/-- `gonep = *big.NewFloat(1)`. -/
def gonep : BF := ⟨.finite, false, 2 ^ 52, 1, 53, .toNearestEven⟩

/-- `gonem = *big.NewFloat(-1)`. -/
def gonem : BF := ⟨.finite, true, 2 ^ 52, 1, 53, .toNearestEven⟩

/-- `gtwop = *big.NewFloat(2)`. -/
def gtwop : BF := ⟨.finite, false, 2 ^ 52, 2, 53, .toNearestEven⟩

/-- `big.NewFloat`: a fresh 53-bit to-nearest-even float with the given signed
dyadic value `±M · 2^E` (all float64 values are such). -/
def NewFloat (negb : Bool) (M : ℕ) (E : ℤ) : BF :=
  ofDyadic .toNearestEven 53 negb M E

/-- Source `round0even`: sets `o` to -1 if `z < -0.5`, 0 if `-0.5 ≤ z ≤ 0.5`,
or 1 if `0.5 < z`. -/
def round0even (o z : BF) : BF :=
  if z.Signbit then
    if z.Cmp ghalfm < 0 then o.Set gonem
    else o.Set gzero
  else
    if z.Cmp ghalfp > 0 then o.Set gonep
    else o.Set gzero

/-- Source `round0away`: sets `o` to -1 if `z ≤ -0.5`, 0 if `-0.5 < z < 0.5`,
or 1 if `0.5 ≤ z`. -/
def round0away (o z : BF) : BF :=
  if z.Signbit then
    if z.Cmp ghalfm ≤ 0 then o.Set gonem
    else o.Set gzero
  else
    if z.Cmp ghalfp ≥ 0 then o.Set gonep
    else o.Set gzero

/-- Source `Round`: rounds `z` to the nearest integer as constrained by
`mode` into `o`.  If `o`'s precision is zero it is given `z`'s precision.
Integers and infinities (including zeros) copy through; magnitudes below one
compare against ±0.5; otherwise the destination precision is temporarily
shrunk to the integer part's bit length so that the engine's own mode-aware
rounding of the assignment performs the integer rounding, and the deferred
`SetMode` restores `o`'s original mode on exit. -/
def Round (o z : BF) (mode : RMode) : BF :=
  if z.IsInt || z.IsInf then o.Set z
  else
    let o := if o.Prec = 0 then o.SetPrec z.prec else o
    let exp := z.MantExp
    if exp ≤ 0 then
      match mode with
      | .toNearestEven => round0even o z
      | .toNearestAway => round0away o z
      | .toZero => o.Set gzero
      | .awayFromZero => if z.Signbit then o.Set gonem else o.Set gonep
      | .toNegativeInf => if z.Signbit then o.Set gonem else o.Set gzero
      | .toPositiveInf => if z.Signbit then o.Set gzero else o.Set gonep
    else
      if (o.Prec : ℤ) ≤ exp then o.Set z
      else
        let savedMode := o.Mode
        let o := o.SetMode mode
        let pp := o.Prec
        (((o.SetPrec exp.toNat).Set z).SetPrec pp).SetMode savedMode

/-- A fresh zero destination of precision 53 with the default mode, as built
by the `Round` test table. -/
def roundDst53 : BF := ⟨.zero, false, 0, 0, 53, .toNearestEven⟩

/-- A fresh zero destination of precision 1 rounding toward positive
infinity. -/
def roundDst1p : BF := ⟨.zero, false, 0, 0, 1, .toPositiveInf⟩

/-- A fresh zero destination of precision 1 rounding toward negative
infinity. -/
def roundDst1m : BF := ⟨.zero, false, 0, 0, 1, .toNegativeInf⟩

set_option maxRecDepth 40000

/-- C2: `Round` reproduces the spec's tie-breaking table exactly.  With a
destination of precision 53: 0.5 under round-to-nearest-even gives 0, 1.5
under nearest-even gives 2, 2.5 under nearest-even gives 2, 0.5 under
nearest-away gives 1, -0.5 under away-from-zero gives -1, 0.25 under
toward-zero gives 0, -0.25 under toward-positive-infinity gives 0; and with
a destination of precision 1, rounding 12 toward positive infinity gives 16
and toward negative infinity gives 8. -/
theorem c2_round_tie_table :
    (Round roundDst53 (NewFloat false 1 (-1)) .toNearestEven).toQ = 0 ∧
    (Round roundDst53 (NewFloat false 3 (-1)) .toNearestEven).toQ = 2 ∧
    (Round roundDst53 (NewFloat false 5 (-1)) .toNearestEven).toQ = 2 ∧
    (Round roundDst53 (NewFloat false 1 (-1)) .toNearestAway).toQ = 1 ∧
    (Round roundDst53 (NewFloat true 1 (-1)) .awayFromZero).toQ = -1 ∧
    (Round roundDst53 (NewFloat false 1 (-2)) .toZero).toQ = 0 ∧
    (Round roundDst53 (NewFloat true 1 (-2)) .toPositiveInf).toQ = 0 ∧
    (Round roundDst1p (NewFloat false 3 2) .toPositiveInf).toQ = 16 ∧
    (Round roundDst1m (NewFloat false 3 2) .toNegativeInf).toQ = 8 := by
  have e1 : Round roundDst53 (NewFloat false 1 (-1)) .toNearestEven =
      ⟨.zero, false, 0, 0, 53, .toNearestEven⟩ := by decide
  have e2 : Round roundDst53 (NewFloat false 3 (-1)) .toNearestEven =
      ⟨.finite, false, 2 ^ 52, 2, 53, .toNearestEven⟩ := by decide
  have e3 : Round roundDst53 (NewFloat false 5 (-1)) .toNearestEven =
      ⟨.finite, false, 2 ^ 52, 2, 53, .toNearestEven⟩ := by decide
  have e4 : Round roundDst53 (NewFloat false 1 (-1)) .toNearestAway =
      ⟨.finite, false, 2 ^ 52, 1, 53, .toNearestEven⟩ := by decide
  have e5 : Round roundDst53 (NewFloat true 1 (-1)) .awayFromZero =
      ⟨.finite, true, 2 ^ 52, 1, 53, .toNearestEven⟩ := by decide
  have e6 : Round roundDst53 (NewFloat false 1 (-2)) .toZero =
      ⟨.zero, false, 0, 0, 53, .toNearestEven⟩ := by decide
  have e7 : Round roundDst53 (NewFloat true 1 (-2)) .toPositiveInf =
      ⟨.zero, false, 0, 0, 53, .toNearestEven⟩ := by decide
  have e8 : Round roundDst1p (NewFloat false 3 2) .toPositiveInf =
      ⟨.finite, false, 1, 5, 1, .toPositiveInf⟩ := by decide
  have e9 : Round roundDst1m (NewFloat false 3 2) .toNegativeInf =
      ⟨.finite, false, 1, 4, 1, .toNegativeInf⟩ := by decide
  refine ⟨?_, ?_, ?_, ?_, ?_, ?_, ?_, ?_, ?_⟩ <;>
    simp only [e1, e2, e3, e4, e5, e6, e7, e8, e9, BF.toQ] <;>
    rw [qpow2_eq_zpow] <;> norm_num

/-- Value of `big.NewFloat(1).SetPrec(p)` for `p ≥ 1`: one, at precision `p`,
default to-nearest-even mode. -/
def bfOne (p : ℕ) : BF := ⟨.finite, false, 2 ^ (p - 1), 1, p, .toNearestEven⟩

/-- Source `quicksh`: multiply `z` by `2^n` exactly via `MantExp`/`SetMantExp`,
overwriting the destination's precision and mode with `z`'s. -/
def quicksh (z : BF) (n : ℤ) : BF := z.shiftExp n

/-- One iteration of the `AGM` loop body: `o.Copy(a2)`,
`quicksh(a2, a2.Add(a2, b2), -1)`, `b2.Sqrt(b2.Mul(b2, o))`, and the
convergence difference `o.Sub(a2, b2)`.  Returns the new `(a2, b2)` pair and
the difference. -/
def agmIter (a2 b2 : BF) : BF × BF × BF :=
  let o := BF.Copy a2 a2
  let a2n := quicksh (BF.Add a2 a2 b2) (-1)
  let b2n := BF.Sqrt b2 (BF.Mul b2 b2 o)
  (a2n, b2n, BF.Sub o a2n b2n)

/-- The `for` loop of `AGM`, with termination fuel: iterate until
`o.Sub(a2, b2).Cmp(lim) == -1`, returning the final `(a2, b2)`; `none` when
the fuel is exhausted before the loop exits. -/
def agmLoop (lim : BF) : ℕ → BF → BF → Option (BF × BF)
  | 0, _, _ => none
  | f + 1, a2, b2 =>
    match agmIter a2 b2 with
    | (a2n, b2n, d) =>
      if d.Cmp lim = -1 then some (a2n, b2n) else agmLoop lim f a2n b2n

/-- Source `AGM`: sets `o` to the arithmetic-geometric mean limit of `a` and
`b` to `o`'s precision (the larger of `a`'s and `b`'s if `o`'s is zero),
working at 64 guard bits, with convergence threshold `2^-(prec+1)`.  The
result is `none` when the loop does not terminate within `fuel` iterations. -/
def AGM (fuel : ℕ) (o a b : BF) : Option BF :=
  let prec := if o.Prec = 0 then max a.Prec b.Prec else o.Prec
  let a2 := (BF.Copy o a).SetPrec (prec + 64)
  let b2 := (BF.Copy o b).SetPrec (prec + 64)
  let ab := if a2.Cmp b2 = -1 then (b2, a2) else (a2, b2)
  let lim := quicksh (bfOne (prec + 64)) (-((prec : ℤ) + 1))
  match agmLoop lim fuel ab.1 ab.2 with
  | none => none
  | some s => some ((BF.Copy o s.1).SetPrec prec)

/-- The destination of the AGM nontermination counterexample: a fresh zero
float of precision 1. -/
def agmDst1 : BF := ⟨.zero, false, 0, 0, 1, .toNearestEven⟩

/-- The input `a = 2^64 + 2` at precision 65 (default mode). -/
def agmBigA : BF := ⟨.finite, false, 2 ^ 64 + 2, 65, 65, .toNearestEven⟩

/-- The input `b = 2^64 + 1` at precision 65 (default mode). -/
def agmBigB : BF := ⟨.finite, false, 2 ^ 64 + 1, 65, 65, .toNearestEven⟩

/-- The input `3` at precision 2 (default mode). -/
def agmThree : BF := ⟨.finite, false, 3, 2, 2, .toNearestEven⟩

/-- C7 (refuted): the AGM iteration does not terminate for every pair of
positive finite inputs.  With destination precision 1 (so working precision
65 and absolute threshold `2^-2`), inputs `a = 2^64 + 2` and `b = 2^64 + 1`
make the loop state reproduce itself exactly every iteration — the
arithmetic mean ties to the even mantissa `a2` and the geometric mean rounds
back down to `b2` — with `|a2 - b2| = 1 ≥ 2^-2` forever, so `AGM` never
returns, whatever the iteration budget. -/
theorem c7_agm_nonterminating (fuel : ℕ) :
    AGM fuel agmDst1 agmBigA agmBigB = none := by
  have hcmp : ¬((agmIter agmBigA agmBigB).2.2.Cmp (quicksh (bfOne 65) (-2)) = -1) := by
    decide
  have h : ∀ f, agmLoop (quicksh (bfOne 65) (-2)) f agmBigA agmBigB = none := by
    intro f
    induction f with
    | zero => rfl
    | succ f ih =>
      show (if (agmIter agmBigA agmBigB).2.2.Cmp (quicksh (bfOne 65) (-2)) = -1
            then some ((agmIter agmBigA agmBigB).1, (agmIter agmBigA agmBigB).2.1)
            else agmLoop (quicksh (bfOne 65) (-2)) f agmBigA agmBigB) = none
      rw [if_neg hcmp]
      exact ih
  show (match agmLoop (quicksh (bfOne 65) (-2)) fuel agmBigA agmBigB with
        | none => none
        | some s => some ((BF.Copy agmDst1 s.1).SetPrec 1)) = none
  rw [h fuel]

/-- C8 counterexample: `AGM(dst, a, a)` does not equal `a` for every positive
`a` and every precision: with destination precision 1 and `a = 3`, the result
is 4 (the final rounding of 3 to one mantissa bit), not 3. -/
theorem c8_fixed_point_counterexample :
    (AGM 2 agmDst1 agmThree agmThree).map BF.toQ ≠ some agmThree.toQ := by
  have h : AGM 2 agmDst1 agmThree agmThree =
      some ⟨.finite, false, 1, 3, 1, .toNearestEven⟩ := by decide
  rw [h]
  show some ((BF.mk .finite false 1 3 1 .toNearestEven).toQ) ≠ some agmThree.toQ
  simp only [BF.toQ, agmThree, qpow2_eq_zpow, Option.some.injEq]
  norm_num

theorem bitLen_mul_pow2 (x s : ℕ) (hx : 1 ≤ x) : bitLen (x * 2 ^ s) = bitLen x + s := by
  obtain ⟨hl, hr, ho⟩ := bitLen_spec x hx
  have h1 : 2 ^ (bitLen x + s - 1) = 2 ^ (bitLen x - 1) * 2 ^ s := by
    rw [← pow_add]
    congr 1
    omega
  have h2 : 2 ^ (bitLen x + s - 1) ≤ x * 2 ^ s := by
    rw [h1]
    exact Nat.mul_le_mul_right _ hl
  have h3 : x * 2 ^ s < 2 ^ (bitLen x + s) := by
    rw [pow_add]
    exact (Nat.mul_lt_mul_right (by positivity)).mpr hr
  exact bitLen_unique _ _ h2 h3 (by omega)

theorem roundCore_fit (mode : RMode) (negb : Bool) (p D : ℕ) (sticky : Bool) (E : ℤ)
    (h : bitLen D ≤ p) :
    roundCore mode negb p D sticky E = (D * 2 ^ (p - bitLen D), E + bitLen D) := by
  unfold roundCore
  simp only [if_pos h]

theorem roundUp_lt_exact (mode : RMode) (negb : Bool) (n : ℕ) :
    roundUp mode negb n .lt true = false := by
  cases mode <;> cases negb <;> simp [roundUp]

theorem roundUp_near_lt (mode : RMode) (negb : Bool) (n : ℕ) (ex : Bool)
    (hm : mode = RMode.toNearestEven ∨ mode = RMode.toNearestAway) :
    roundUp mode negb n .lt ex = false := by
  rcases hm with h | h <;> subst h <;> simp [roundUp]

theorem roundUp_near_gt (mode : RMode) (negb : Bool) (n : ℕ) (ex : Bool)
    (hm : mode = RMode.toNearestEven ∨ mode = RMode.toNearestAway) :
    roundUp mode negb n .gt ex = true := by
  rcases hm with h | h <;> subst h <;> simp [roundUp]

/-- Exact rounding: if the discarded bits of `D` are zero and there is no
sticky contribution, every mode keeps the truncated mantissa. -/
theorem roundCore_exact (mode : RMode) (negb : Bool) (p D k : ℕ) (E : ℤ)
    (hb : bitLen D = p + k) (hk : 1 ≤ k) (hr : D % 2 ^ k = 0) :
    roundCore mode negb p D false E = (D / 2 ^ k, E + (p + k)) := by
  have hnb : ¬(bitLen D ≤ p) := by omega
  have hDpos : 1 ≤ D := by
    by_contra hD
    have : D = 0 := by omega
    subst this
    simp [bitLen, bitLenBig] at hb
    omega
  obtain ⟨hl, hrr, _⟩ := bitLen_spec D hDpos
  have h1 : (0 : ℕ) < 2 ^ (k - 1) := by positivity
  have hn : D / 2 ^ k < 2 ^ p := by
    have h2 : D < 2 ^ p * 2 ^ k := by
      rw [← pow_add, ← hb]
      exact hrr
    exact Nat.div_lt_of_lt_mul (by rwa [Nat.mul_comm] at h2)
  have hne : ¬(D / 2 ^ k = 2 ^ p) := by omega
  unfold roundCore
  simp only [hb, hr, Nat.add_sub_cancel_left, if_pos h1]
  rw [if_neg (by omega : ¬(p + k ≤ p))]
  have hex : (decide True && !false) = true := by simp
  rw [hex, roundUp_lt_exact]
  simp only [Bool.false_eq_true, if_false, if_neg hne]
  norm_num

/-- Half-ulp error bound for rounding to nearest: rounding `D · 2^E` to `p`
bits (with `bitLen D = p + k` discarded-bit count `k ≥ 1`) yields a
normalised mantissa `Mv` and shift `c ∈ {k, k+1}` with
`|Mv·2^c - D| ≤ 2^(k-1)`. -/
theorem roundCore_near (mode : RMode) (negb : Bool) (p D k : ℕ) (E : ℤ)
    (hm : mode = RMode.toNearestEven ∨ mode = RMode.toNearestAway)
    (hb : bitLen D = p + k) (hk : 1 ≤ k) (hp : 1 ≤ p) :
    ∃ (Mv : ℕ) (c : ℕ), roundCore mode negb p D false E = (Mv, E + ((p : ℤ) + (c : ℤ))) ∧
      2 ^ (p - 1) ≤ Mv ∧ Mv < 2 ^ p ∧ k ≤ c ∧ c ≤ k + 1 ∧
      Mv * 2 ^ c ≤ D + 2 ^ (k - 1) ∧ D ≤ Mv * 2 ^ c + 2 ^ (k - 1) := by
  have hDpos : 1 ≤ D := by
    by_contra hD
    have : D = 0 := by omega
    subst this
    simp [bitLen, bitLenBig] at hb
    omega
  obtain ⟨hDl, hDr, _⟩ := bitLen_spec D hDpos
  rw [hb] at hDl hDr
  have hkk : 2 ^ k = 2 * 2 ^ (k - 1) := by
    calc 2 ^ k = 2 ^ (k - 1 + 1) := by congr 1; omega
    _ = 2 ^ (k - 1) * 2 := pow_succ 2 (k - 1)
    _ = 2 * 2 ^ (k - 1) := by ring
  have hDnr : 2 ^ k * (D / 2 ^ k) + D % 2 ^ k = D := Nat.div_add_mod D (2 ^ k)
  have hrk : D % 2 ^ k < 2 ^ k := Nat.mod_lt _ (by positivity)
  have hnlo : 2 ^ (p - 1) ≤ D / 2 ^ k := by
    apply (Nat.le_div_iff_mul_le (by positivity)).mpr
    calc 2 ^ (p - 1) * 2 ^ k = 2 ^ (p + k - 1) := by
          rw [← pow_add]; congr 1; omega
    _ ≤ D := hDl
  have hnhi : D / 2 ^ k < 2 ^ p := by
    apply Nat.div_lt_of_lt_mul
    calc D < 2 ^ (p + k) := hDr
    _ = 2 ^ k * 2 ^ p := by rw [← pow_add]; congr 1; omega
  have hppow : 2 ^ (p - 1) * 2 ^ (k + 1) = 2 ^ p * 2 ^ k := by
    rw [← pow_add, ← pow_add]
    congr 1
    omega
  set n := D / 2 ^ k with hn
  set r := D % 2 ^ k with hr
  have hdist : 2 ^ k * (n + 1) = 2 ^ k * n + 2 ^ k := by ring
  have hpair : ∀ (a : ℕ) (x y : ℤ), x = y → ((a, x) : ℕ × ℤ) = (a, y) := by
    intro a x y h
    rw [h]
  have hcast : (E + ((p + k : ℕ) : ℤ)) = E + ((p : ℤ) + (k : ℤ)) := by push_cast; ring
  have hcast2 : (E + ((p + k : ℕ) : ℤ) + 1) = E + ((p : ℤ) + ((k + 1 : ℕ) : ℤ)) := by
    push_cast
    ring
  unfold roundCore
  rw [hb]
  rw [if_neg (by omega : ¬(p + k ≤ p))]
  simp only [Nat.add_sub_cancel_left, ← hn, ← hr]
  rcases Nat.lt_trichotomy r (2 ^ (k - 1)) with hlt | heq | hgt
  · -- fraction below one half: round down
    have b1 : n * 2 ^ k ≤ D + 2 ^ (k - 1) := by rw [Nat.mul_comm]; omega
    have b2 : D ≤ n * 2 ^ k + 2 ^ (k - 1) := by rw [Nat.mul_comm]; omega
    rw [if_pos hlt, roundUp_near_lt _ _ _ _ hm]
    simp only [Bool.false_eq_true, if_false]
    rw [if_neg (by omega : ¬(n = 2 ^ p))]
    exact ⟨n, k, hpair _ _ _ hcast, hnlo, hnhi, le_rfl, by omega, b1, b2⟩
  · -- exact tie: either decision is within the half-ulp bound
    have b1 : n * 2 ^ k ≤ D + 2 ^ (k - 1) := by rw [Nat.mul_comm]; omega
    have b2 : D ≤ n * 2 ^ k + 2 ^ (k - 1) := by rw [Nat.mul_comm]; omega
    have b1u : (n + 1) * 2 ^ k ≤ D + 2 ^ (k - 1) := by
      rw [Nat.mul_comm, hdist]
      omega
    have b2u : D ≤ (n + 1) * 2 ^ k + 2 ^ (k - 1) := by
      rw [Nat.mul_comm, hdist]
      omega
    rw [if_neg (by omega : ¬(r < 2 ^ (k - 1)))]
    have hhi : (if (decide (r = 2 ^ (k - 1)) && !false) = true then Ordering.eq
        else Ordering.gt) = Ordering.eq := by simp [heq]
    rw [hhi]
    rcases Bool.eq_false_or_eq_true
        (roundUp mode negb n .eq (decide (r = 0) && !false)) with hU | hU
    · rw [hU]
      simp only [eq_self_iff_true]
      rw [if_pos trivial]
      by_cases hc : n + 1 = 2 ^ p
      · rw [if_pos hc]
        refine ⟨2 ^ (p - 1), k + 1, hpair _ _ _ hcast2, le_rfl,
          Nat.pow_lt_pow_right (by norm_num) (by omega), by omega, by omega, ?_, ?_⟩
        · rw [hppow, ← hc]
          exact b1u
        · rw [hppow, ← hc]
          exact b2u
      · rw [if_neg hc]
        exact ⟨n + 1, k, hpair _ _ _ hcast, by omega, by omega, le_rfl, by omega, b1u, b2u⟩
    · rw [hU]
      simp only [Bool.false_eq_true, if_false]
      rw [if_neg (by omega : ¬(n = 2 ^ p))]
      exact ⟨n, k, hpair _ _ _ hcast, hnlo, hnhi, le_rfl, by omega, b1, b2⟩
  · -- fraction above one half: round up
    have b1u : (n + 1) * 2 ^ k ≤ D + 2 ^ (k - 1) := by
      rw [Nat.mul_comm, hdist]
      omega
    have b2u : D ≤ (n + 1) * 2 ^ k + 2 ^ (k - 1) := by
      rw [Nat.mul_comm, hdist]
      omega
    rw [if_neg (by omega : ¬(r < 2 ^ (k - 1)))]
    have hne2 : ¬(r = 2 ^ (k - 1)) := by omega
    have hhi : (if (decide (r = 2 ^ (k - 1)) && !false) = true then Ordering.eq
        else Ordering.gt) = Ordering.gt := by simp [hne2]
    rw [hhi, roundUp_near_gt _ _ _ _ hm]
    simp only [eq_self_iff_true]
    rw [if_pos trivial]
    by_cases hc : n + 1 = 2 ^ p
    · rw [if_pos hc]
      refine ⟨2 ^ (p - 1), k + 1, hpair _ _ _ hcast2, le_rfl,
        Nat.pow_lt_pow_right (by norm_num) (by omega), by omega, by omega, ?_, ?_⟩
      · rw [hppow, ← hc]
        exact b1u
      · rw [hppow, ← hc]
        exact b2u
    · rw [if_neg hc]
      exact ⟨n + 1, k, hpair _ _ _ hcast, by omega, by omega, le_rfl, by omega, b1u, b2u⟩

theorem sq_lt_nat (a b : ℕ) (h : a ^ 2 < b ^ 2) : a < b := by
  by_contra hc
  have h2 : b ≤ a := by omega
  have := Nat.pow_le_pow_left h2 2
  omega

theorem isqrt_eq_of (n a : ℕ) (h1 : a ^ 2 ≤ n) (h2 : n < (a + 1) ^ 2) : isqrt n = a := by
  obtain ⟨hl, hr⟩ := isqrt_spec n
  have h3 : a < isqrt n + 1 := by
    by_contra h
    have h5 : isqrt n + 1 ≤ a := by omega
    have := Nat.pow_le_pow_left h5 2
    omega
  have h4 : isqrt n < a + 1 := by
    by_contra h
    have h5 : a + 1 ≤ isqrt n := by omega
    have := Nat.pow_le_pow_left h5 2
    omega
  omega

theorem pow2_sq (j : ℕ) : ((2 : ℕ) ^ j) ^ 2 = 4 ^ j := by
  rw [← pow_mul, show (4 : ℕ) = 2 ^ 2 from rfl, ← pow_mul]
  congr 1
  ring

set_option maxHeartbeats 2000000 in
/-- Correct rounding of a square root: if `4N` lies strictly between
`((2m-1)·2^j)^2` and `((2m+1)·2^j)^2` — that is, `√N ∈ (m - 1/2, m + 1/2)·2^j`
— then rounding `isqrt N` with the inexactness sticky bit to `P` bits under a
to-nearest mode yields exactly the mantissa `m` (with the power-of-two
boundary mantissa `m = 2^(P-1)` admitted only for exact squares). -/
theorem sqrtRound_eq (mode : RMode) (P m j N : ℕ) (Ev : ℤ)
    (hm : mode = RMode.toNearestEven ∨ mode = RMode.toNearestAway)
    (hP : 1 ≤ P) (hmlo : 2 ^ (P - 1) ≤ m) (hmhi : m < 2 ^ P) (hj : 1 ≤ j)
    (hlo : (2 * m - 1) ^ 2 * 4 ^ j < 4 * N)
    (hhi : 4 * N < (2 * m + 1) ^ 2 * 4 ^ j)
    (hcase : 2 ^ (P - 1) + 1 ≤ m ∨ N = m ^ 2 * 4 ^ j) :
    roundCore mode false P (isqrt N) (decide (isqrt N ^ 2 ≠ N)) Ev =
      (m, Ev + ((P : ℤ) + (j : ℤ))) := by
  obtain ⟨hu1, hu2⟩ := isqrt_spec N
  set u := isqrt N with hu
  clear_value u
  set A := m * 2 ^ j with hA
  set H := (2 : ℕ) ^ (j - 1) with hH
  have hHpos : 1 ≤ H := Nat.one_le_two_pow
  have hj2 : (2 : ℕ) ^ j = 2 * H := by
    rw [hH]
    calc (2 : ℕ) ^ j = 2 ^ (j - 1 + 1) := by congr 1; omega
    _ = 2 ^ (j - 1) * 2 := pow_succ 2 (j - 1)
    _ = 2 * 2 ^ (j - 1) := by ring
  have hm1 : 1 ≤ m := le_trans Nat.one_le_two_pow hmlo
  have hup : 2 * u < 2 * A + 2 * H := by
    have h1 : (2 * u) ^ 2 ≤ 4 * N := by nlinarith
    have h2 : 4 * N < ((2 * m + 1) * 2 ^ j) ^ 2 := by
      calc 4 * N < (2 * m + 1) ^ 2 * 4 ^ j := hhi
      _ = ((2 * m + 1) * 2 ^ j) ^ 2 := by rw [mul_pow, pow2_sq]
    have h3 : 2 * u < (2 * m + 1) * 2 ^ j := sq_lt_nat _ _ (lt_of_le_of_lt h1 h2)
    have h4 : (2 * m + 1) * 2 ^ j = 2 * A + 2 * H := by
      rw [hA, hj2]
      ring
    omega
  have hdn : 2 * A < 2 * (u + 1) + 2 * H := by
    have h1 : ((2 * m - 1) * 2 ^ j) ^ 2 < 4 * N := by
      calc ((2 * m - 1) * 2 ^ j) ^ 2 = (2 * m - 1) ^ 2 * 4 ^ j := by rw [mul_pow, pow2_sq]
      _ < 4 * N := hlo
    have h2 : 4 * N < (2 * (u + 1)) ^ 2 := by nlinarith
    have h3 : (2 * m - 1) * 2 ^ j < 2 * (u + 1) := sq_lt_nat _ _ (lt_trans h1 h2)
    have h4 : (2 * m - 1) * 2 ^ j + 2 ^ j = 2 * A := by
      have h5 : (2 * m - 1) + 1 = 2 * m := by omega
      calc (2 * m - 1) * 2 ^ j + 2 ^ j = ((2 * m - 1) + 1) * 2 ^ j := by ring
      _ = (2 * m) * 2 ^ j := by rw [h5]
      _ = 2 * A := by rw [hA]; ring
    omega
  have huA1 : A ≤ u + H := by omega
  have huA2 : u < A + H := by omega
  have hblm : bitLen m = P := bitLen_unique m P hmlo hmhi hP
  have hblu : bitLen u = P + j := by
    rcases hcase with hc1 | hc2
    · have e1 : 2 ^ (P - 1) * 2 ^ j = 2 ^ (P - 1 + j) := by rw [← pow_add]
      have e2 : (2 ^ (P - 1) + 1) * 2 ^ j ≤ m * 2 ^ j := Nat.mul_le_mul_right _ hc1
      have e3 : (2 ^ (P - 1) + 1) * 2 ^ j = 2 ^ (P - 1 + j) + 2 ^ j := by
        rw [Nat.add_mul, e1]
        ring
      have e4 : m * 2 ^ j + 2 ^ j ≤ 2 ^ P * 2 ^ j := by
        have h6 : m + 1 ≤ 2 ^ P := by omega
        calc m * 2 ^ j + 2 ^ j = (m + 1) * 2 ^ j := by ring
        _ ≤ 2 ^ P * 2 ^ j := Nat.mul_le_mul_right _ h6
      have e5 : 2 ^ P * 2 ^ j = 2 ^ (P + j) := by rw [← pow_add]
      have e6 : 2 ^ (P + j - 1) = 2 ^ (P - 1 + j) := by congr 1; omega
      apply bitLen_unique u (P + j) _ _ (by omega)
      · rw [e6]
        omega
      · omega
    · have hsq : ((m * 2 ^ j) : ℕ) ^ 2 = m ^ 2 * 4 ^ j := by rw [mul_pow, pow2_sq]
      have hueq : u = A := by
        rw [hu, hA]
        apply isqrt_eq_of
        · rw [hc2]
          rw [hsq]
        · rw [hc2]
          nlinarith [hsq]
      rw [hueq, hA, bitLen_mul_pow2 m j hm1, hblm]
  have hdam : 2 ^ j * (u / 2 ^ j) + u % 2 ^ j = u := Nat.div_add_mod u (2 ^ j)
  unfold roundCore
  rw [hblu]
  rw [if_neg (by omega : ¬(P + j ≤ P))]
  simp only [Nat.add_sub_cancel_left]
  by_cases hAu : A ≤ u
  · have hdiv : u / 2 ^ j = m := by
      have hlink : m * 2 ^ j = A := by rw [hA]
      have hlink2 : (m + 1) * 2 ^ j = A + 2 ^ j := by rw [hA]; ring
      apply Nat.div_eq_of_lt_le
      · omega
      · have h7 : Nat.succ m * 2 ^ j = A + 2 ^ j := by
          rw [Nat.succ_eq_add_one]
          exact hlink2
        rw [h7]
        omega
    have hmod : u % 2 ^ j < H := by
      have h8 : 2 ^ j * m + u % 2 ^ j = u := by rw [← hdiv]; exact hdam
      have h9 : 2 ^ j * m = A := by rw [hA]; ring
      omega
    rw [if_pos hmod, roundUp_near_lt _ _ _ _ hm]
    simp only [Bool.false_eq_true, if_false, hdiv]
    rw [if_neg (by omega : ¬(m = 2 ^ P))]
    have hcs : (Ev + ((P + j : ℕ) : ℤ)) = Ev + ((P : ℤ) + (j : ℤ)) := by push_cast; ring
    rw [hcs]
  · have hAu2 : u < A := by omega
    have e6 : (m - 1) * 2 ^ j + 2 ^ j = A := by
      have h5 : (m - 1) + 1 = m := by omega
      calc (m - 1) * 2 ^ j + 2 ^ j = ((m - 1) + 1) * 2 ^ j := by ring
      _ = m * 2 ^ j := by rw [h5]
      _ = A := by rw [hA]
    have hdiv : u / 2 ^ j = m - 1 := by
      apply Nat.div_eq_of_lt_le
      · omega
      · have h7 : Nat.succ (m - 1) * 2 ^ j = A := by
          rw [Nat.succ_eq_add_one, show m - 1 + 1 = m by omega, hA]
        rw [h7]
        omega
    have hmod : H ≤ u % 2 ^ j ∧ u % 2 ^ j < 2 * H := by
      have h8 : 2 ^ j * (m - 1) + u % 2 ^ j = u := by rw [← hdiv]; exact hdam
      have h9 : 2 ^ j * (m - 1) + 2 ^ j = A := by rw [← e6]; ring
      omega
    rw [if_neg (by omega : ¬(u % 2 ^ j < H))]
    by_cases hrH : u % 2 ^ j = H
    · have hstk : (decide (¬(u ^ 2 = N))) = true := by
        have huAH : u + H = A := by
          have h8 : 2 ^ j * (m - 1) + u % 2 ^ j = u := by rw [← hdiv]; exact hdam
          have h9 : 2 ^ j * (m - 1) + 2 ^ j = A := by rw [← e6]; ring
          omega
        have hne : ¬(u ^ 2 = N) := by
          intro heqN
          have h10 : (2 * u) ^ 2 = 4 * N := by
            rw [← heqN]
            ring
          have h11 : 2 * u + 2 ^ j = 2 * A := by omega
          have h12 : (2 * m - 1) * 2 ^ j = 2 * u := by
            have h13 : (2 * m - 1) * 2 ^ j + 2 ^ j = 2 * A := by
              have h14 : (2 * m - 1) + 1 = 2 * m := by omega
              calc (2 * m - 1) * 2 ^ j + 2 ^ j = ((2 * m - 1) + 1) * 2 ^ j := by ring
              _ = 2 * m * 2 ^ j := by rw [h14]
              _ = 2 * A := by rw [hA]; ring
            omega
          have h15 : (2 * m - 1) ^ 2 * 4 ^ j = 4 * N := by
            calc (2 * m - 1) ^ 2 * 4 ^ j = ((2 * m - 1) * 2 ^ j) ^ 2 := by
                  rw [mul_pow, pow2_sq]
            _ = (2 * u) ^ 2 := by rw [h12]
            _ = 4 * N := h10
          omega
        exact decide_eq_true hne
      have hcond : (decide (u % 2 ^ j = H) && !(decide (¬(u ^ 2 = N)))) = false := by
        rw [hstk]
        simp only [Bool.not_true, Bool.and_false]
      rw [hcond]
      simp only [Bool.false_eq_true, if_false]
      rw [roundUp_near_gt _ _ _ _ hm]
      simp only [eq_self_iff_true]
      rw [if_pos trivial, hdiv]
      rw [show m - 1 + 1 = m from by omega]
      rw [if_neg (by omega : ¬(m = 2 ^ P))]
      have hcs : (Ev + ((P + j : ℕ) : ℤ)) = Ev + ((P : ℤ) + (j : ℤ)) := by push_cast; ring
      rw [hcs]
    · have hcond : (decide (u % 2 ^ j = H) && !(decide (¬(u ^ 2 = N)))) = false := by
        rw [decide_eq_false hrH, Bool.false_and]
      rw [hcond]
      simp only [Bool.false_eq_true, if_false]
      rw [roundUp_near_gt _ _ _ _ hm]
      simp only [eq_self_iff_true]
      rw [if_pos trivial, hdiv]
      rw [show m - 1 + 1 = m from by omega]
      rw [if_neg (by omega : ¬(m = 2 ^ P))]
      have hcs : (Ev + ((P + j : ℕ) : ℤ)) = Ev + ((P : ℤ) + (j : ℤ)) := by push_cast; ring
      rw [hcs]

/-- Reduction of `Mul` on finite operands with a nonzero-precision
destination. -/
theorem Mul_fin (mode md2 md3 : RMode) (nz n1 n2 : Bool) (Mz M1 M2 : ℕ)
    (ez e1 e2 : ℤ) (q p1 p2 : ℕ) (fz : Form) (hq : ¬(q = 0)) :
    BF.Mul ⟨fz, nz, Mz, ez, q, mode⟩ ⟨.finite, n1, M1, e1, p1, md2⟩
        ⟨.finite, n2, M2, e2, p2, md3⟩ =
      mkFin mode q (xor n1 n2)
        (roundCore mode (xor n1 n2) q (M1 * M2) false
          ((e1 - (p1 : ℤ)) + (e2 - (p2 : ℤ)))) := by
  simp [BF.Mul, hq]

/-- Reduction of `Sqrt` on a positive finite operand with a nonzero-precision
destination. -/
theorem Sqrt_fin (mode md2 : RMode) (nz : Bool) (Mz Mx N : ℕ) (ez ex Ev : ℤ)
    (q px : ℕ) (fz : Form) (hq : ¬(q = 0))
    (hN : N = (if decide ((ex - (px : ℤ)) % 2 = 0) = true then Mx else 2 * Mx) * 4 ^ (q + 2))
    (hEv : Ev = (if decide ((ex - (px : ℤ)) % 2 = 0) = true then (ex - (px : ℤ)) / 2
        else ((ex - (px : ℤ)) - 1) / 2) - ((q : ℤ) + 2)) :
    BF.Sqrt ⟨fz, nz, Mz, ez, q, mode⟩ ⟨.finite, false, Mx, ex, px, md2⟩ =
      mkFin mode q false
        (roundCore mode false q (isqrt N) (decide (isqrt N ^ 2 ≠ N)) Ev) := by
  subst hN
  subst hEv
  simp [BF.Sqrt, hq]

/-- Reduction of `Add` on finite operands with a nonzero-precision
destination. -/
theorem Add_fin (mode md2 md3 : RMode) (nz n1 n2 : Bool) (Mz M1 M2 : ℕ)
    (ez e1 e2 : ℤ) (q p1 p2 : ℕ) (fz : Form) (hq : ¬(q = 0)) :
    BF.Add ⟨fz, nz, Mz, ez, q, mode⟩ ⟨.finite, n1, M1, e1, p1, md2⟩
        ⟨.finite, n2, M2, e2, p2, md3⟩ =
      BF.addCore mode q n1 M1 (e1 - (p1 : ℤ)) n2 M2 (e2 - (p2 : ℤ)) := by
  simp [BF.Add, BF.magM, BF.magE, hq]

/-- `addCore` on two equal positive magnitudes: the exact sum is `2M·2^E`. -/
theorem addCore_dup (mode : RMode) (q M : ℕ) (E : ℤ) (hM : 1 ≤ M) :
    BF.addCore mode q false M E false M E =
      mkFin mode q false (roundCore mode false q (2 * M) false E) := by
  unfold BF.addCore
  have hM1 : (1 : ℤ) ≤ (M : ℤ) := by exact_mod_cast hM
  simp only [sub_self, Int.toNat_zero, pow_zero, mul_one, one_mul,
    Bool.false_eq_true, if_false, min_self]
  rw [if_neg (by omega : ¬((M : ℤ) + (M : ℤ) = 0))]
  rw [decide_eq_false (by omega : ¬((M : ℤ) + (M : ℤ) < 0))]
  rw [show ((M : ℤ) + (M : ℤ)).natAbs = 2 * M from by omega]

/-- `addCore` on two equal magnitudes of opposite sign: an exact zero, signed
positively except under `toNegativeInf`. -/
theorem addCore_cancel (mode : RMode) (q M : ℕ) (E : ℤ) :
    BF.addCore mode q false M E true M E =
      mkZero mode q (decide (mode = RMode.toNegativeInf)) := by
  unfold BF.addCore
  simp

/-- Reduction of `SetPrec` on a finite float to a nonzero precision. -/
theorem SetPrec_fin (mode : RMode) (ng : Bool) (M q P : ℕ) (e : ℤ)
    (hq : ¬(q = 0)) :
    BF.SetPrec ⟨.finite, ng, M, e, P, mode⟩ q =
      mkFin mode q ng (roundCore mode ng q M false (e - (P : ℤ))) := by
  simp [BF.SetPrec, hq]

/-- Raising the precision of a normalised finite float is an exact mantissa
shift. -/
theorem setPrecUp (mode : RMode) (ng : Bool) (m P k : ℕ) (e : ℤ)
    (hbl : bitLen m = P) (hP : 1 ≤ P) (hk : P ≤ k) :
    BF.SetPrec ⟨.finite, ng, m, e, P, mode⟩ k =
      ⟨.finite, ng, m * 2 ^ (k - P), e, k, mode⟩ := by
  rw [SetPrec_fin mode ng m k P e (by omega)]
  rw [roundCore_fit mode ng k m false _ (by rw [hbl]; exact hk)]
  rw [hbl]
  unfold mkFin
  rw [show (e - (P : ℤ)) + (P : ℤ) = e from by ring]

/-- Lowering the precision of a finite float whose dropped bits are zero is an
exact mantissa shift. -/
theorem setPrecDown (mode : RMode) (ng : Bool) (M k q : ℕ) (e : ℤ)
    (hbl : bitLen M = k) (hq : 1 ≤ q) (hqk : q < k)
    (hmod : M % 2 ^ (k - q) = 0) :
    BF.SetPrec ⟨.finite, ng, M, e, k, mode⟩ q =
      ⟨.finite, ng, M / 2 ^ (k - q), e, q, mode⟩ := by
  rw [SetPrec_fin mode ng M q k e (by omega)]
  rw [roundCore_exact mode ng q M (k - q) _ (by omega) (by omega) hmod]
  unfold mkFin
  rw [show (e - (k : ℤ)) + ((q : ℤ) + ((k - q : ℕ) : ℤ)) = e from by
    have h1 : ((k - q : ℕ) : ℤ) = (k : ℤ) - (q : ℤ) := by omega
    rw [h1]; ring]

/-- `quicksh` on a finite float shifts the exponent exactly. -/
theorem quicksh_fin (ng : Bool) (M p : ℕ) (e s : ℤ) (md : RMode) :
    quicksh ⟨.finite, ng, M, e, p, md⟩ s = ⟨.finite, ng, M, e + s, p, md⟩ := rfl

/-- `Cmp` of a positive finite float with itself is `0`. -/
theorem Cmp_fin_self (M p : ℕ) (e : ℤ) (md : RMode) :
    BF.Cmp ⟨.finite, false, M, e, p, md⟩ ⟨.finite, false, M, e, p, md⟩ = 0 := by
  simp [BF.Cmp, BF.cmpDy]
  rw [show compare M M = Ordering.eq from by simp [Nat.compare_eq_eq]]

/-- `Cmp` of a zero against a positive finite float is `-1`. -/
theorem Cmp_zero_posfin (ng : Bool) (Mz pz : ℕ) (ez : ℤ) (mdz : RMode)
    (M p : ℕ) (e : ℤ) (md : RMode) :
    BF.Cmp ⟨.zero, ng, Mz, ez, pz, mdz⟩ ⟨.finite, false, M, e, p, md⟩ = -1 := by
  simp [BF.Cmp]

/-- `Sub` of a positive finite float from itself (same destination) is an
exact positive zero under the to-nearest modes. -/
theorem Sub_self_zero (mode : RMode) (M q : ℕ) (e : ℤ)
    (hm : mode = RMode.toNearestEven ∨ mode = RMode.toNearestAway)
    (hq : ¬(q = 0)) :
    BF.Sub ⟨.finite, false, M, e, q, mode⟩ ⟨.finite, false, M, e, q, mode⟩
        ⟨.finite, false, M, e, q, mode⟩ = ⟨.zero, false, 0, 0, q, mode⟩ := by
  unfold BF.Sub
  simp only [Bool.not_false]
  rw [Add_fin mode mode mode false false true M M M e e e q q q Form.finite hq]
  rw [addCore_cancel]
  unfold mkZero
  rw [show decide (mode = RMode.toNegativeInf) = false from by
    rcases hm with h | h <;> subst h <;> rfl]

set_option maxHeartbeats 1000000 in
/-- The geometric-mean step of the `AGM` loop on two equal operands
reproduces the operand exactly under the to-nearest modes:
`Sqrt(Mul(v, v))` with all destinations at `v`'s own (nonzero) precision
returns `v` itself, for any normalised positive finite `v`. -/
theorem sqrt_mul_self (mode : RMode) (k M : ℕ) (e : ℤ)
    (hm : mode = RMode.toNearestEven ∨ mode = RMode.toNearestAway)
    (hk : 2 ≤ k) (hMl : 2 ^ (k - 1) ≤ M) (hMh : M < 2 ^ k) :
    BF.Sqrt ⟨.finite, false, M, e, k, mode⟩
        (BF.Mul ⟨.finite, false, M, e, k, mode⟩ ⟨.finite, false, M, e, k, mode⟩
          ⟨.finite, false, M, e, k, mode⟩) =
      ⟨.finite, false, M, e, k, mode⟩ := by
  have hk0 : ¬(k = 0) := by omega
  have hM1 : 1 ≤ M := le_trans Nat.one_le_two_pow hMl
  have key : ∃ (Mw : ℕ) (c : ℕ),
      roundCore mode false k (M * M) false ((e - (k : ℤ)) + (e - (k : ℤ))) =
        (Mw, ((e - (k : ℤ)) + (e - (k : ℤ))) + ((k : ℤ) + (c : ℤ))) ∧
      2 ^ (k - 1) ≤ Mw ∧ Mw < 2 ^ k ∧ 1 ≤ c ∧ c ≤ k + 1 ∧
      4 * (Mw * 2 ^ c) ≤ 4 * (M * M) + 2 ^ (k + 1) ∧
      4 * (M * M) ≤ 4 * (Mw * 2 ^ c) + 2 ^ (k + 1) ∧
      (M = 2 ^ (k - 1) → Mw * 2 ^ c = M * M) := by
    by_cases hMb : M = 2 ^ (k - 1)
    · have hMM : M * M = 2 ^ (2 * k - 2) := by
        rw [hMb, ← pow_add]
        congr 1
        omega
      have hbl2 : bitLen (M * M) = k + (k - 1) := by
        rw [hMM]
        have h1 : bitLen (2 ^ (2 * k - 2)) = 2 * k - 1 :=
          bitLen_unique _ _
            (by rw [show 2 * k - 1 - 1 = 2 * k - 2 from by omega])
            (Nat.pow_lt_pow_right (by norm_num) (by omega)) (by omega)
        omega
      have hmod : (M * M) % 2 ^ (k - 1) = 0 := by
        rw [hMM, show 2 * k - 2 = (k - 1) + (k - 1) from by omega, pow_add]
        exact Nat.mul_mod_right _ _
      have hrc := roundCore_exact mode false k (M * M) (k - 1)
        ((e - (k : ℤ)) + (e - (k : ℤ))) hbl2 (by omega) hmod
      have hdivq : (M * M) / 2 ^ (k - 1) = M := by
        rw [hMM, show 2 * k - 2 = (k - 1) + (k - 1) from by omega, pow_add,
          Nat.mul_div_cancel_left _ (by positivity), hMb]
      have hcast : ((k + (k - 1) : ℕ) : ℤ) = (k : ℤ) + ((k - 1 : ℕ) : ℤ) := by
        push_cast
        ring
      have hx : M * 2 ^ (k - 1) = M * M := by rw [hMb]
      refine ⟨M, k - 1, by rw [hrc, hdivq], hMl, hMh, by omega, by omega,
        by omega, by omega, fun _ => hx⟩
    · have hge : 2 ^ (k - 1) + 1 ≤ M := by omega
      have hMMl : 2 ^ (2 * k - 2) + 2 ^ k + 1 ≤ M * M := by
        have h1 : (2 ^ (k - 1) + 1) * (2 ^ (k - 1) + 1) ≤ M * M :=
          Nat.mul_le_mul hge hge
        have h2 : (2 ^ (k - 1) + 1) * (2 ^ (k - 1) + 1) =
            2 ^ (k - 1) * 2 ^ (k - 1) + 2 * 2 ^ (k - 1) + 1 := by ring
        have h3 : 2 ^ (k - 1) * 2 ^ (k - 1) = 2 ^ (2 * k - 2) := by
          rw [← pow_add]
          congr 1
          omega
        have h4 : (2 : ℕ) * 2 ^ (k - 1) = 2 ^ k := by
          rw [← pow_succ']
          congr 1
          omega
        omega
      have hMMh : M * M < 2 ^ (2 * k) := by
        have h1 : M * M < 2 ^ k * 2 ^ k := Nat.mul_lt_mul'' hMh hMh
        rwa [← pow_add, show k + k = 2 * k from by omega] at h1
      have hpos : 1 ≤ M * M := Nat.one_le_iff_ne_zero.mpr (by positivity)
      obtain ⟨hbl, hbr, hb1⟩ := bitLen_spec (M * M) hpos
      have hbge : k + 1 ≤ bitLen (M * M) := by
        by_contra hc
        have h5 : (2 : ℕ) ^ bitLen (M * M) ≤ 2 ^ k :=
          Nat.pow_le_pow_right (by norm_num) (by omega)
        have h6 : (0 : ℕ) < 2 ^ (2 * k - 2) := by positivity
        omega
      have hble : bitLen (M * M) ≤ 2 * k := by
        by_contra hc
        have h5 : (2 : ℕ) ^ (2 * k) ≤ 2 ^ (bitLen (M * M) - 1) :=
          Nat.pow_le_pow_right (by norm_num) (by omega)
        omega
      have hbeq : bitLen (M * M) = k + (bitLen (M * M) - k) := by omega
      obtain ⟨Mv, c, hrc, h1, h2, h3, h4, h5, h6⟩ :=
        roundCore_near mode false k (M * M) (bitLen (M * M) - k)
          ((e - (k : ℤ)) + (e - (k : ℤ))) hm hbeq (by omega) (by omega)
      have hmono : (2 : ℕ) ^ (bitLen (M * M) - k - 1) ≤ 2 ^ (k - 1) :=
        Nat.pow_le_pow_right (by norm_num) (by omega)
      have hkk1 : (2 : ℕ) ^ (k + 1) = 4 * 2 ^ (k - 1) := by
        rw [show k + 1 = 2 + (k - 1) from by omega, pow_add]
        norm_num
      exact ⟨Mv, c, hrc, h1, h2, by omega, by omega, by omega, by omega,
        fun hMb2 => absurd hMb2 hMb⟩
  obtain ⟨Mw, c, hrc, hMwl, hMwh, hc1, hck, herr1, herr2, hexact⟩ := key
  have hMul : BF.Mul ⟨.finite, false, M, e, k, mode⟩ ⟨.finite, false, M, e, k, mode⟩
      ⟨.finite, false, M, e, k, mode⟩ =
      ⟨.finite, false, Mw, ((e - (k : ℤ)) + (e - (k : ℤ))) + ((k : ℤ) + (c : ℤ)),
        k, mode⟩ := by
    rw [Mul_fin mode mode mode false false false M M M e e e k k k Form.finite hk0]
    simp only [Bool.xor_false]
    rw [hrc]
    rfl
  have hsq1 : (2 * M - 1) ^ 2 + 4 * M = 4 * (M * M) + 1 := by
    have h1 : (2 * M - 1) + 1 = 2 * M := by omega
    have h2 : ((2 * M - 1) + 1) ^ 2 = (2 * M - 1) ^ 2 + 2 * (2 * M - 1) + 1 := by
      ring
    have h3 : ((2 * M - 1) + 1) ^ 2 = 4 * (M * M) := by
      rw [h1]
      ring
    omega
  have hsq2 : (2 * M + 1) ^ 2 = 4 * (M * M) + 4 * M + 1 := by ring
  have hkk1 : (2 : ℕ) ^ (k + 1) = 4 * 2 ^ (k - 1) := by
    rw [show k + 1 = 2 + (k - 1) from by omega, pow_add]
    norm_num
  have hcore_hi : 4 * (Mw * 2 ^ c) < (2 * M + 1) ^ 2 := by omega
  have hcore_lo : (2 * M - 1) ^ 2 < 4 * (Mw * 2 ^ c) := by
    rcases Nat.lt_or_ge (2 ^ (k - 1)) M with hgt | hle
    · omega
    · have hMb : M = 2 ^ (k - 1) := by omega
      have hx := hexact hMb
      omega
  rw [hMul]
  obtain ⟨c', hcc⟩ : ∃ c', c = 2 * c' ∨ c = 2 * c' + 1 := ⟨c / 2, by omega⟩
  have hc'le : c' ≤ k + 1 := by omega
  obtain ⟨j, hj⟩ : ∃ j, j = k + 2 - c' := ⟨k + 2 - c', rfl⟩
  have hj1 : 1 ≤ j := by omega
  have hjpos : (0 : ℕ) < 4 ^ j := by positivity
  rcases hcc with hce | hco
  · have hevn : ((((e - (k : ℤ)) + (e - (k : ℤ))) + ((k : ℤ) + (c : ℤ))) - (k : ℤ)) % 2
        = 0 := by omega
    have h4N : 4 * (Mw * 2 ^ c) * 4 ^ j = 4 * (Mw * 4 ^ (k + 2)) := by
      have hpc : (2 : ℕ) ^ c = 4 ^ c' := by
        rw [hce, pow_mul]
        norm_num
      have hps : (4 : ℕ) ^ c' * 4 ^ j = 4 ^ (k + 2) := by
        rw [← pow_add]
        congr 1
        omega
      calc 4 * (Mw * 2 ^ c) * 4 ^ j = 4 * Mw * (4 ^ c' * 4 ^ j) := by
            rw [hpc]
            ring
      _ = 4 * (Mw * 4 ^ (k + 2)) := by
            rw [hps]
            ring
    rw [Sqrt_fin mode mode false M Mw (Mw * 4 ^ (k + 2)) e
      ((((e - (k : ℤ)) + (e - (k : ℤ))) + ((k : ℤ) + (c : ℤ))))
      (e - (k : ℤ) - (j : ℤ)) k k Form.finite hk0
      (by rw [decide_eq_true hevn]; simp)
      (by rw [decide_eq_true hevn]; simp only [if_pos]; omega)]
    rw [sqrtRound_eq mode k M j (Mw * 4 ^ (k + 2)) (e - (k : ℤ) - (j : ℤ)) hm
      (by omega) hMl hMh hj1
      (by rw [← h4N]; exact (Nat.mul_lt_mul_right hjpos).mpr hcore_lo)
      (by rw [← h4N]; exact (Nat.mul_lt_mul_right hjpos).mpr hcore_hi)
      ?caseEv]
    case caseEv =>
      rcases Nat.lt_or_ge (2 ^ (k - 1)) M with hgt | hle
      · exact Or.inl (by omega)
      · refine Or.inr ?_
        have hMb : M = 2 ^ (k - 1) := by omega
        have hx := hexact hMb
        have h1 : 4 * (Mw * 4 ^ (k + 2)) = 4 * (M ^ 2 * 4 ^ j) := by
          rw [← h4N, hx]
          ring
        omega
    unfold mkFin
    rw [show (e - (k : ℤ) - (j : ℤ)) + ((k : ℤ) + (j : ℤ)) = e from by ring]
  · have hodd : ¬(((((e - (k : ℤ)) + (e - (k : ℤ))) + ((k : ℤ) + (c : ℤ))) - (k : ℤ)) % 2
        = 0) := by omega
    have h4N : 4 * (Mw * 2 ^ c) * 4 ^ j = 4 * (2 * Mw * 4 ^ (k + 2)) := by
      have hpc : (2 : ℕ) ^ c = 2 * 4 ^ c' := by
        rw [hco, pow_succ, pow_mul]
        norm_num
        ring
      have hps : (4 : ℕ) ^ c' * 4 ^ j = 4 ^ (k + 2) := by
        rw [← pow_add]
        congr 1
        omega
      calc 4 * (Mw * 2 ^ c) * 4 ^ j = 4 * (2 * Mw) * (4 ^ c' * 4 ^ j) := by
            rw [hpc]
            ring
      _ = 4 * (2 * Mw * 4 ^ (k + 2)) := by
            rw [hps]
            ring
    rw [Sqrt_fin mode mode false M Mw (2 * Mw * 4 ^ (k + 2)) e
      ((((e - (k : ℤ)) + (e - (k : ℤ))) + ((k : ℤ) + (c : ℤ))))
      (e - (k : ℤ) - (j : ℤ)) k k Form.finite hk0
      (by rw [decide_eq_false hodd]; simp)
      (by rw [decide_eq_false hodd]; simp only [Bool.false_eq_true, if_false]; omega)]
    rw [sqrtRound_eq mode k M j (2 * Mw * 4 ^ (k + 2)) (e - (k : ℤ) - (j : ℤ)) hm
      (by omega) hMl hMh hj1
      (by rw [← h4N]; exact (Nat.mul_lt_mul_right hjpos).mpr hcore_lo)
      (by rw [← h4N]; exact (Nat.mul_lt_mul_right hjpos).mpr hcore_hi)
      ?caseOd]
    case caseOd =>
      rcases Nat.lt_or_ge (2 ^ (k - 1)) M with hgt | hle
      · exact Or.inl (by omega)
      · refine Or.inr ?_
        have hMb : M = 2 ^ (k - 1) := by omega
        have hx := hexact hMb
        have h1 : 4 * (2 * Mw * 4 ^ (k + 2)) = 4 * (M ^ 2 * 4 ^ j) := by
          rw [← h4N, hx]
          ring
        omega
    unfold mkFin
    rw [show (e - (k : ℤ) - (j : ℤ)) + ((k : ℤ) + (j : ℤ)) = e from by ring]

set_option maxHeartbeats 1000000 in
/-- Core of the amended `AGM` fixed-point property: on two copies of a
normalised positive finite float (to-nearest mode) whose inferred target
precision `q` is at least the operand's precision `P`, the first iteration
already meets the convergence test and `AGM` returns the operand's value
exactly, renormalised to `q` bits. -/
theorem agm_fixed_core (fuel : ℕ) (o : BF) (mode : RMode) (m P q : ℕ) (e : ℤ)
    (hm : mode = RMode.toNearestEven ∨ mode = RMode.toNearestAway)
    (hbl : bitLen m = P) (hP : 1 ≤ P)
    (hq : (if o.prec = 0 then max P P else o.prec) = q) (hPq : P ≤ q) :
    AGM (fuel + 1) o ⟨.finite, false, m, e, P, mode⟩
        ⟨.finite, false, m, e, P, mode⟩ =
      some ⟨.finite, false, m * 2 ^ (q - P), e, q, mode⟩ := by
  have hm1 : 1 ≤ m := by
    by_contra hc
    have h0 : m = 0 := by omega
    subst h0
    simp [bitLen, bitLenBig] at hbl
    omega
  obtain ⟨hml, hmh, _⟩ := bitLen_spec m hm1
  rw [hbl] at hml hmh
  have hk0 : ¬(q + 64 = 0) := by omega
  have hM1 : 1 ≤ m * 2 ^ (q + 64 - P) := by
    calc 1 = 1 * 1 := by norm_num
    _ ≤ m * 2 ^ (q + 64 - P) := Nat.mul_le_mul hm1 Nat.one_le_two_pow
  have hblM : bitLen (m * 2 ^ (q + 64 - P)) = q + 64 := by
    rw [bitLen_mul_pow2 m _ hm1, hbl]
    omega
  have hMl : 2 ^ (q + 64 - 1) ≤ m * 2 ^ (q + 64 - P) := by
    calc (2 : ℕ) ^ (q + 64 - 1) = 2 ^ (P - 1) * 2 ^ (q + 64 - P) := by
          rw [← pow_add]
          congr 1
          omega
    _ ≤ m * 2 ^ (q + 64 - P) := Nat.mul_le_mul_right _ hml
  have hMh : m * 2 ^ (q + 64 - P) < 2 ^ (q + 64) := by
    calc m * 2 ^ (q + 64 - P) < 2 ^ P * 2 ^ (q + 64 - P) :=
          (Nat.mul_lt_mul_right (by positivity)).mpr hmh
    _ = 2 ^ (q + 64) := by
          rw [← pow_add]
          congr 1
          omega
  have hAdd1 : BF.Add ⟨.finite, false, m * 2 ^ (q + 64 - P), e, q + 64, mode⟩
      ⟨.finite, false, m * 2 ^ (q + 64 - P), e, q + 64, mode⟩
      ⟨.finite, false, m * 2 ^ (q + 64 - P), e, q + 64, mode⟩ =
      ⟨.finite, false, m * 2 ^ (q + 64 - P), e + 1, q + 64, mode⟩ := by
    rw [Add_fin mode mode mode false false false _ _ _ e e e _ _ _ Form.finite hk0]
    rw [addCore_dup mode (q + 64) (m * 2 ^ (q + 64 - P)) (e - ((q + 64 : ℕ) : ℤ)) hM1]
    rw [roundCore_exact mode false (q + 64) (2 * (m * 2 ^ (q + 64 - P))) 1
      (e - ((q + 64 : ℕ) : ℤ))
      (by rw [show 2 * (m * 2 ^ (q + 64 - P)) = (m * 2 ^ (q + 64 - P)) * 2 ^ 1 from
          by ring, bitLen_mul_pow2 _ 1 hM1, hblM])
      (by omega) (by rw [pow_one]; omega)]
    unfold mkFin
    rw [show 2 * (m * 2 ^ (q + 64 - P)) / 2 ^ 1 = m * 2 ^ (q + 64 - P) from by
      rw [pow_one]
      omega]
    rw [show (e - ((q + 64 : ℕ) : ℤ)) + (((q + 64 : ℕ) : ℤ) + ((1 : ℕ) : ℤ)) = e + 1 from by
      push_cast
      ring]
  have hIter : agmIter ⟨.finite, false, m * 2 ^ (q + 64 - P), e, q + 64, mode⟩
      ⟨.finite, false, m * 2 ^ (q + 64 - P), e, q + 64, mode⟩ =
      (⟨.finite, false, m * 2 ^ (q + 64 - P), e, q + 64, mode⟩,
       ⟨.finite, false, m * 2 ^ (q + 64 - P), e, q + 64, mode⟩,
       ⟨.zero, false, 0, 0, q + 64, mode⟩) := by
    simp only [agmIter, BF.Copy]
    rw [hAdd1, quicksh_fin, show e + 1 + (-1 : ℤ) = e from by ring]
    rw [sqrt_mul_self mode (q + 64) (m * 2 ^ (q + 64 - P)) e hm (by omega) hMl hMh]
    rw [Sub_self_zero mode (m * 2 ^ (q + 64 - P)) (q + 64) e hm hk0]
  have hcmp : BF.Cmp ⟨.zero, false, 0, 0, q + 64, mode⟩
      (quicksh (bfOne (q + 64)) (-((q : ℤ) + 1))) = -1 := by
    rw [show quicksh (bfOne (q + 64)) (-((q : ℤ) + 1)) =
        ⟨.finite, false, 2 ^ (q + 64 - 1), 1 + -((q : ℤ) + 1), q + 64,
          .toNearestEven⟩ from rfl]
    exact Cmp_zero_posfin _ _ _ _ _ _ _ _ _
  have hLoop : agmLoop (quicksh (bfOne (q + 64)) (-((q : ℤ) + 1))) (fuel + 1)
      ⟨.finite, false, m * 2 ^ (q + 64 - P), e, q + 64, mode⟩
      ⟨.finite, false, m * 2 ^ (q + 64 - P), e, q + 64, mode⟩ =
      some (⟨.finite, false, m * 2 ^ (q + 64 - P), e, q + 64, mode⟩,
        ⟨.finite, false, m * 2 ^ (q + 64 - P), e, q + 64, mode⟩) := by
    simp only [agmLoop, hIter]
    rw [if_pos hcmp]
  have hnc : ¬(BF.Cmp ⟨.finite, false, m * 2 ^ (q + 64 - P), e, q + 64, mode⟩
      ⟨.finite, false, m * 2 ^ (q + 64 - P), e, q + 64, mode⟩ = -1) := by
    rw [Cmp_fin_self]
    norm_num
  simp only [AGM, BF.Prec, BF.Copy]
  rw [hq]
  rw [setPrecUp mode false m P (q + 64) e hbl hP (by omega)]
  rw [if_neg hnc]
  rw [hLoop]
  dsimp only
  rw [setPrecDown mode false (m * 2 ^ (q + 64 - P)) (q + 64) q e hblM (by omega)
    (by omega)
    (by rw [show q + 64 - q = 64 from by omega,
          show q + 64 - P = (q - P) + 64 from by omega, pow_add, ← Nat.mul_assoc]
        exact Nat.mul_mod_left _ _)]
  rw [show m * 2 ^ (q + 64 - P) / 2 ^ (q + 64 - q) = m * 2 ^ (q - P) from by
    rw [show q + 64 - q = 64 from by omega,
      show q + 64 - P = (q - P) + 64 from by omega, pow_add, ← Nat.mul_assoc,
      Nat.mul_div_cancel _ (by positivity)]]

/-- Value preservation of the renormalisation `m·2^(e-P) = (m·2^(q-P))·2^(e-q)`
on the rational value of a positive finite float. -/
theorem toQ_renorm (md : RMode) (m P q : ℕ) (e : ℤ) (hPq : P ≤ q) :
    (⟨.finite, false, m * 2 ^ (q - P), e, q, md⟩ : BF).toQ =
      (⟨.finite, false, m, e, P, md⟩ : BF).toQ := by
  simp only [BF.toQ, Bool.false_eq_true, if_false, qpow2_eq_zpow, one_mul]
  push_cast
  rw [← zpow_natCast (2 : ℚ) (q - P)]
  rw [show (((q - P : ℕ)) : ℤ) = (q : ℤ) - (P : ℤ) from by omega]
  rw [mul_assoc, ← zpow_add₀ (by norm_num : (2 : ℚ) ≠ 0)]
  rw [show ((q : ℤ) - (P : ℤ)) + (e - (q : ℤ)) = e - (P : ℤ) from by ring]

/-- C8 (amended): restricted to the to-nearest rounding modes and to
destinations whose target precision is at least the operand's own (or zero,
which inherits it), `AGM(dst, a, a)` applied to two copies of a normalised
positive finite `a` terminates on its first iteration and produces exactly
`a`'s value: the spec's fixed-point identity `AGM(a, a) == a` holds under
these conditions, and the separate counterexample shows it fails without
them. -/
theorem c8_agm_fixed_point_amended (fuel : ℕ) (o a : BF)
    (hform : a.form = Form.finite) (hneg : a.neg = false)
    (hmode : a.mode = RMode.toNearestEven ∨ a.mode = RMode.toNearestAway)
    (hnorm : bitLen a.mant = a.prec) (hP : 1 ≤ a.prec)
    (hdst : o.prec = 0 ∨ a.prec ≤ o.prec) :
    ∃ r, AGM (fuel + 1) o a a = some r ∧ r.toQ = a.toQ := by
  obtain ⟨f, ng, m, e, P, md⟩ := a
  dsimp only at hform hneg hmode hnorm hP hdst
  subst hform
  subst hneg
  by_cases ho : o.prec = 0
  · refine ⟨⟨.finite, false, m * 2 ^ (P - P), e, P, md⟩,
      agm_fixed_core fuel o md m P P e hmode hnorm hP
        (by rw [if_pos ho, Nat.max_self]) le_rfl, ?_⟩
    exact toQ_renorm md m P P e le_rfl
  · have hop : P ≤ o.prec := hdst.resolve_left ho
    refine ⟨⟨.finite, false, m * 2 ^ (o.prec - P), e, o.prec, md⟩,
      agm_fixed_core fuel o md m P o.prec e hmode hnorm hP (if_neg ho) hop, ?_⟩
    exact toQ_renorm md m P o.prec e hop

/-- A fresh zero destination of precision 0, as built by `new(big.Float)`. -/
def c8DstFresh : BF := ⟨.zero, false, 0, 0, 0, .toNearestEven⟩

theorem c8_agm_fixed_point_amended_witness :
    ∃ r, AGM (0 + 1) c8DstFresh agmThree agmThree = some r ∧
      r.toQ = agmThree.toQ :=
  c8_agm_fixed_point_amended 0 c8DstFresh agmThree rfl rfl (Or.inl rfl)
    (by decide) (by decide) (Or.inl rfl)

/-- `SetPrec` always stamps the requested precision on its result. -/
theorem SetPrec_prec (x : BF) (p : ℕ) : (BF.SetPrec x p).prec = p := by
  obtain ⟨f, ng, m, e, P, md⟩ := x
  cases f <;> by_cases hp : p = 0 <;> simp [BF.SetPrec, hp, mkFin]

/-- Source `piCalc` (the Brent–Salamin computation of π into `a`): its final
statement returns `a.SetPrec(prec)` with `prec = a.Prec()` captured on entry.
The iteration itself is abstracted as the parameter `body`; only the final
precision stamp matters to the cache invariant. -/
def piCalc (body : ℕ → BF) (a : BF) : BF := BF.SetPrec (body a.prec) a.prec

/-- Source `cachedPi` as a sequential transition on the cache state `c` (the
`*big.Float` stored in `piCache`), with `enablePiCache` true: returns the π
value handed to the caller together with the cache contents after the call.
The post-lock re-check re-reads the same `c` in the sequential model. -/
def cachedPi (body : ℕ → BF) (prec : ℕ) (c : BF) : BF × BF :=
  if c.prec ≥ prec then (c, c)
  else if c.prec ≥ prec then (c, c)
  else
    let pi := piCalc body (BF.SetPrec (mkZero .toNearestEven 0 false) prec)
    (pi, pi)

/-- Source `Pi` as a sequential transition on the cache state `c`: returns the
value `a` ends with and the cache contents after the call (`enablePiCache`
true).  The cache is stored only when the loaded precision is still below the
requested one. -/
def Pi (body : ℕ → BF) (a c : BF) : BF × BF :=
  if a.prec = 0 then (BF.Set a gzero, c)
  else
    if a.prec ≤ c.prec then (BF.Set a c, c)
    else
      let a2 := piCalc body a
      if c.prec < a.prec then (a2, BF.Copy (mkZero .toNearestEven 0 false) a2)
      else (a2, c)

/-- C9: the π cache's precision is monotonically non-decreasing: one call to
`cachedPi` (at any requested precision) or to `Pi` (with any argument float)
leaves the cached value's precision unchanged or increases it, and never
replaces the cached value with one of lower precision. -/
theorem c9_pi_cache_monotonic (body : ℕ → BF) (a c : BF) (prec : ℕ) :
    c.prec ≤ ((cachedPi body prec c).2).prec ∧
    c.prec ≤ ((Pi body a c).2).prec := by
  constructor
  · unfold cachedPi
    by_cases h : c.prec ≥ prec
    · rw [if_pos h]
    · rw [if_neg h, if_neg h]
      show c.prec ≤ (piCalc body (BF.SetPrec (mkZero .toNearestEven 0 false) prec)).prec
      unfold piCalc
      rw [SetPrec_prec, SetPrec_prec]
      omega
  · unfold Pi
    by_cases h0 : a.prec = 0
    · rw [if_pos h0]
    · rw [if_neg h0]
      by_cases h1 : a.prec ≤ c.prec
      · rw [if_pos h1]
      · rw [if_neg h1]
        by_cases h2 : c.prec < a.prec
        · rw [if_pos h2]
          show c.prec ≤ (BF.Copy (mkZero .toNearestEven 0 false) (piCalc body a)).prec
          unfold BF.Copy piCalc
          rw [SetPrec_prec]
          omega
        · rw [if_neg h2]

/-- The record a call to `Pow` produces: the destination's final contents,
the returned value, and whether the returned pointer is the destination. -/
structure PowRes where
  dst : BF
  ret : BF
  retIsDst : Bool
  deriving DecidableEq, Repr

/-- Source `Pow`: `o` is the caller's destination.  The `exp(w·log z)` tail is
abstracted by the parameter `general` (applied to the precision-adjusted
destination and the operands); the early returns settle everything before it
is reached in the verified paths.  The `ErrNaN` panic is an `Except.error`. -/
def Pow (general : BF → BF → BF → PowRes) (o z w : BF) : Except String PowRes :=
  let o := if o.prec = 0 then
      (if z.prec ≥ w.prec then BF.SetPrec o z.prec else BF.SetPrec o w.prec)
    else o
  if z.Signbit then Except.error "Pow: negative base"
  else if BF.Sign w = 0 then
    Except.ok ⟨o, BF.SetPrec (NewFloat false 1 0) z.prec, false⟩
  else if BF.Cmp w (NewFloat false 1 0) = 0 ∨ BF.IsInf z = true then
    Except.ok ⟨o, BF.Copy (mkZero .toNearestEven 0 false) z, false⟩
  else
    Except.ok (general o z w)

/-- A trivial instantiation of `Pow`'s abstracted general path (never reached
in the verified inputs). -/
def powGenStub : BF → BF → BF → PowRes := fun o _ _ => ⟨o, o, true⟩

/-- A fresh zero destination of precision 53. -/
def c4Dst : BF := ⟨.zero, false, 0, 0, 53, .toNearestEven⟩

/-- Positive infinity at precision 53. -/
def c4InfZ : BF := ⟨.inf, false, 0, 0, 53, .toNearestEven⟩

/-- Positive zero at precision 53 (the exponent `w = 0`). -/
def c4ZeroW : BF := ⟨.zero, false, 0, 0, 53, .toNearestEven⟩

/-- The exponent `w = 2` at precision 2 (any `w` of nonzero sign). -/
def c4PosW : BF := ⟨.finite, false, 2, 2, 2, .toNearestEven⟩

/-- C4 counterexample: `Pow(dst, +Inf, 0)` returns 1 (the `w.Sign() == 0`
early return fires before the `z.IsInf()` test), not +Inf as the claim
states for every `w`. -/
theorem c4_pow_inf_zero_counterexample :
    Pow powGenStub c4Dst c4InfZ c4ZeroW =
      Except.ok ⟨c4Dst, ⟨.finite, false, 2 ^ 52, 1, 53, .toNearestEven⟩, false⟩ ∧
    (⟨.finite, false, 2 ^ 52, 1, 53, .toNearestEven⟩ : BF).IsInf = false := by
  constructor
  · rfl
  · decide

/-- C4 (amended): for every exponent `w` of nonzero sign, `Pow(dst, +Inf, w)`
returns positive infinity (the value `z` itself, via the fresh copy of the
`w == 1 || z.IsInf()` early return), whatever the abstracted general path
does. -/
theorem c4_pow_inf_amended (general : BF → BF → BF → PowRes) (o z w : BF)
    (hform : z.form = Form.inf) (hneg : z.neg = false)
    (hw : ¬(BF.Sign w = 0)) :
    ∃ r, Pow general o z w = Except.ok r ∧ r.ret = z ∧ r.ret.form = Form.inf ∧
      r.ret.neg = false := by
  refine ⟨⟨(if o.prec = 0 then
      (if z.prec ≥ w.prec then BF.SetPrec o z.prec else BF.SetPrec o w.prec)
    else o), z, false⟩, ?_, rfl, hform, hneg⟩
  simp only [Pow, BF.Signbit, hneg, Bool.false_eq_true, if_false]
  rw [if_neg hw]
  rw [if_pos (Or.inr (by simp [BF.IsInf, hform]))]
  rfl

theorem c4_pow_inf_amended_witness :
    ∃ r, Pow powGenStub c4Dst c4InfZ c4PosW = Except.ok r ∧ r.ret = c4InfZ ∧
      r.ret.form = Form.inf ∧ r.ret.neg = false :=
  c4_pow_inf_amended powGenStub c4Dst c4InfZ c4PosW rfl rfl (by decide)

/-- A destination of precision 100 for the C5 failing input. -/
def c5Dst : BF := ⟨.zero, false, 0, 0, 100, .toNearestEven⟩

/-- The base `z = 1` at precision 10. -/
def c5Z : BF := ⟨.finite, false, 2 ^ 9, 1, 10, .toNearestEven⟩

/-- The exponent `w = +0` at precision 53. -/
def c5W : BF := ⟨.zero, false, 0, 0, 53, .toNearestEven⟩

/-- C5: on `Pow(dst, z, 0)` with positive `z`, the code returns a freshly
allocated 1 at `z`'s precision: the returned pointer is not the caller's
destination (`retIsDst = false`), the destination (precision 100) is left
untouched, and the result's precision is `z`'s (10), not the destination's —
contradicting the claim that `dst` is set to 1 at `dst`'s precision and
returned. -/
theorem c5_pow_w_zero_bug :
    Pow powGenStub c5Dst c5Z c5W =
      Except.ok ⟨c5Dst, ⟨.finite, false, 2 ^ 9, 1, 10, .toNearestEven⟩, false⟩ ∧
    c5Dst.prec = 100 ∧
    (⟨.finite, false, 2 ^ 9, 1, 10, .toNearestEven⟩ : BF).prec = 10 := by
  exact ⟨by rfl, rfl, rfl⟩

/-- The record a call to the aliased `Exp(z, z)` produces: the shared
storage's final contents, the returned value, and whether the returned
pointer is that storage. -/
structure ExpRes where
  dst : BF
  ret : BF
  retIsDst : Bool
  deriving DecidableEq, Repr

/-- Source two-arg `Exp` specialised to the aliased call `Exp(z, z)` the
claim quantifies over (destination and argument the same storage), so the
internal test `p == z` is true and `p` is the freshly allocated float.
`ov z` models the platform test `math.IsInf(math.Exp(zf), 1) || zf == 0` on
the float64 estimate (platform arithmetic, not code of this repository) and
`newt z` the value the `newton` iteration produces.  Fuel bounds the
argument-reduction recursion. -/
def ExpSelf (ov : BF → Bool) (newt : BF → BF) : ℕ → BF → Option ExpRes
  | 0, _ => none
  | fuel + 1, z =>
    let z := if z.prec = 0 then BF.SetPrec z z.prec else z
    if BF.Sign z = 0 then
      some ⟨ofDyadic z.mode (if z.prec = 0 then 53 else z.prec) false 1 0,
        ofDyadic z.mode (if z.prec = 0 then 53 else z.prec) false 1 0, true⟩
    else if BF.IsInf z = true then
      if BF.Sign z < 0 then some ⟨BF.Set z gzero, BF.Set z gzero, true⟩
      else some ⟨BF.Set z z, BF.Set z z, true⟩
    else
      if ov z = true then
        match ExpSelf ov newt fuel
          (BF.Mul (mkZero .toNearestEven (z.prec + 64) false) z
            (NewFloat false 1 (-1))) with
        | none => none
        | some r =>
          some ⟨z, BF.Mul (mkZero .toNearestEven z.prec false) r.ret r.ret, false⟩
      else
        some ⟨BF.Set z (newt z), BF.Set z (newt z), true⟩

/-- C6: in the argument-reduction branch (the float64 estimate overflowed or
underflowed), the aliased call `Exp(z, z)` returns the internal fresh float
`p` and never writes the shared destination storage: whatever the recursion
produces, the outer result keeps `dst = z` (the argument unchanged) and has
`retIsDst = false` — contradicting the claim that the engine snapshots `z`
and then sets and returns the destination. -/
theorem c6_exp_aliased_reduction_bug (ov : BF → Bool) (newt : BF → BF)
    (fuel : ℕ) (z : BF) (hform : z.form = Form.finite) (hprec : ¬(z.prec = 0))
    (hov : ov z = true) :
    ExpSelf ov newt (fuel + 1) z =
      (ExpSelf ov newt fuel
        (BF.Mul (mkZero .toNearestEven (z.prec + 64) false) z
          (NewFloat false 1 (-1)))).map
        (fun r => ⟨z, BF.Mul (mkZero .toNearestEven z.prec false) r.ret r.ret,
          false⟩) := by
  have hsgn : ¬(BF.Sign z = 0) := by
    simp only [BF.Sign, hform]
    cases hz : z.neg <;> simp
  have hinf : ¬(BF.IsInf z = true) := by simp [BF.IsInf, hform]
  simp only [ExpSelf]
  rw [if_neg hprec]
  rw [if_neg hsgn, if_neg hinf, if_pos hov]
  cases ExpSelf ov newt fuel
    (BF.Mul (mkZero .toNearestEven (z.prec + 64) false) z (NewFloat false 1 (-1)))
  · rfl
  · rfl

/-- The argument `z = 1024` at precision 53: `math.Exp(1024)` overflows
float64, so the reduction branch runs. -/
def c6Z : BF := ⟨.finite, false, 2 ^ 52, 11, 53, .toNearestEven⟩

/-- A concrete overflow test: the float64 estimate overflows from `z ≥ 1024`
(exponent at least 11). -/
def c6Ov : BF → Bool := fun b => decide (11 ≤ b.exp)

/-- A concrete stand-in for the newton iteration's value. -/
def c6Newt : BF → BF := fun b => b

theorem c6_exp_aliased_reduction_bug_witness :
    ExpSelf c6Ov c6Newt (1 + 1) c6Z =
      (ExpSelf c6Ov c6Newt 1
        (BF.Mul (mkZero .toNearestEven (c6Z.prec + 64) false) c6Z
          (NewFloat false 1 (-1)))).map
        (fun r => ⟨c6Z, BF.Mul (mkZero .toNearestEven c6Z.prec false) r.ret r.ret,
          false⟩) :=
  c6_exp_aliased_reduction_bug c6Ov c6Newt 1 c6Z rfl (by decide) (by decide)

/-- Outcome of a `Log` call: a panic (`err`), fuel exhaustion of one of the
internal loops (`spin`, no return and no panic), or a returned value. -/
inductive LogOut where
  | err : String → LogOut
  | spin : LogOut
  | out : BF → LogOut
  deriving DecidableEq, Repr

/-- The `for o.Cmp(lim) < 0` squaring loop of `Log`, with termination fuel:
returns the final `o` and the doubling count `k`. -/
def logSquareLoop (lim : BF) : ℕ → BF → ℕ → Option (BF × ℕ)
  | 0, _, _ => none
  | f + 1, o, k =>
    if BF.Cmp o lim < 0 then logSquareLoop lim f (BF.Mul o o o) (k + 1)
    else some (o, k)

/-- The tail of `Log` shared by the `z > 1` and `z < 1` branches: scale up by
squaring, apply the AGM formula `π / (2·AGM(1, 4/x))`, negate if needed and
scale back by `2^-k`.  `piF` stands for the lowercase `pi` helper the source
calls (its definition is not among the repository's files); the claim holds
for every `piF`. -/
def logCore (piF : ℕ → BF) (fuel : ℕ) (o1 : BF) (neg : Bool) (prec : ℕ)
    (one two four : BF) : LogOut :=
  let lim := BF.shiftExp two ((prec / 2 : ℕ) : ℤ)
  match logSquareLoop lim fuel o1 0 with
  | none => .spin
  | some (o2, k) =>
    match AGM fuel (mkZero .toNearestEven 0 false) one (BF.Quo o2 four o2) with
    | none => .spin
    | some agm =>
      let o3 := BF.Quo o2 (piF prec) (BF.Mul o2 two agm)
      let o4 := if neg then BF.NegSelf o3 else o3
      let o5 := BF.Mul o4 o4 (BF.shiftExp one (-(k : ℤ)))
      .out (BF.SetPrec o5 (prec - 64))

/-- Source two-arg `Log` after the zero-precision destination adjustment:
panic on a set sign bit (including -0), `-Inf` for `+0`, `+Inf` for `+Inf`,
exact zero for `z = 1` via the comparison short-circuit, and the AGM
computation otherwise. -/
def logMain (piF : ℕ → BF) (fuel : ℕ) (o z : BF) : LogOut :=
  if z.Signbit then .err "Log: argument is negative"
  else if BF.Sign z = 0 then .out (BF.SetInf o true)
  else if BF.IsInf z = true then .out (BF.Set o z)
  else
    let prec := o.prec + 64
    let one := BF.SetPrec (NewFloat false 1 0) prec
    let two := BF.SetPrec (NewFloat false 1 1) prec
    let four := BF.SetPrec (NewFloat false 1 2) prec
    if BF.Cmp z one = 1 then
      logCore piF fuel (BF.Set (BF.SetPrec o prec) z) false prec one two four
    else if BF.Cmp z one = -1 then
      logCore piF fuel (BF.Quo (BF.SetPrec o prec) one z) true prec one two four
    else if BF.Cmp z one = 0 then .out (BF.Set o gzero)
    else .err "bigfloat: unexpected comparison result, not 0, 1, or -1"

/-- Source two-arg `Log`: give a zero-precision destination `z`'s precision,
then run the body. -/
def Log (piF : ℕ → BF) (fuel : ℕ) (o z : BF) : LogOut :=
  logMain piF fuel (if o.prec = 0 then BF.SetPrec o z.prec else o) z

/-- The AGM tail of `Log` never panics: it either returns or runs out of
fuel. -/
theorem logCore_ne_err (piF : ℕ → BF) (fuel : ℕ) (o1 : BF) (neg : Bool)
    (prec : ℕ) (one two four : BF) (s : String) :
    ¬(logCore piF fuel o1 neg prec one two four = LogOut.err s) := by
  intro h
  simp only [logCore] at h
  split at h
  · exact LogOut.noConfusion h
  · split at h
    · exact LogOut.noConfusion h
    · exact LogOut.noConfusion h

/-- `Cmp` only returns -1, 0 or 1. -/
theorem Cmp_mem (x y : BF) : BF.Cmp x y = -1 ∨ BF.Cmp x y = 0 ∨ BF.Cmp x y = 1 := by
  simp only [BF.Cmp]
  repeat' split
  all_goals first
  | exact Or.inl rfl
  | exact Or.inr (Or.inl rfl)
  | exact Or.inr (Or.inr rfl)

/-- Two normalised representations of 1 compare equal, at any precisions. -/
theorem Cmp_norm_one (P q : ℕ) (hP : 1 ≤ P) (hq : 1 ≤ q) (md md2 : RMode) :
    BF.Cmp ⟨.finite, false, 2 ^ (P - 1), 1, P, md⟩
      ⟨.finite, false, 2 ^ (q - 1), 1, q, md2⟩ = 0 := by
  have hdy : BF.cmpDy (2 ^ (P - 1)) (1 - (P : ℤ)) (2 ^ (q - 1)) (1 - (q : ℤ)) =
      Ordering.eq := by
    unfold BF.cmpDy
    by_cases hle : (1 - (P : ℤ)) ≤ (1 - (q : ℤ))
    · rw [if_pos hle]
      rw [show ((1 - (q : ℤ)) - (1 - (P : ℤ))).toNat = P - q from by omega]
      rw [show (2 : ℕ) ^ (q - 1) * 2 ^ (P - q) = 2 ^ (P - 1) from by
        rw [← pow_add]
        congr 1
        omega]
      simp [Nat.compare_eq_eq]
    · rw [if_neg hle]
      rw [show ((1 - (P : ℤ)) - (1 - (q : ℤ))).toNat = q - P from by omega]
      rw [show (2 : ℕ) ^ (P - 1) * 2 ^ (q - P) = 2 ^ (q - 1) from by
        rw [← pow_add]
        congr 1
        omega]
      simp [Nat.compare_eq_eq]
  simp only [BF.Cmp, Bool.false_eq_true, if_false]
  rw [if_neg (lt_irrefl (1 : ℤ)), if_neg (lt_irrefl (1 : ℤ))]
  rw [hdy]

/-- `big.NewFloat(1).SetPrec(q)` for `q ≥ 53` is the normalised 1 at
precision `q`. -/
theorem one_setPrec (q : ℕ) (hq : 53 ≤ q) :
    BF.SetPrec (NewFloat false 1 0) q =
      ⟨.finite, false, 2 ^ (q - 1), 1, q, .toNearestEven⟩ := by
  rw [show NewFloat false 1 0 =
      ⟨.finite, false, 2 ^ 52, 1, 53, .toNearestEven⟩ from by rfl]
  rw [setPrecUp .toNearestEven false (2 ^ 52) 53 q 1 (by decide) (by norm_num) hq]
  rw [show (2 : ℕ) ^ 52 * 2 ^ (q - 53) = 2 ^ (q - 1) from by
    rw [← pow_add]
    congr 1
    omega]

/-- `logMain` with an unset sign bit never panics. -/
theorem logMain_not_err (piF : ℕ → BF) (fuel : ℕ) (o z : BF)
    (hnb : z.Signbit = false) (s : String) :
    ¬(logMain piF fuel o z = LogOut.err s) := by
  intro h
  simp only [logMain] at h
  rw [hnb] at h
  simp only [Bool.false_eq_true, if_false] at h
  by_cases h0 : BF.Sign z = 0
  · rw [if_pos h0] at h
    exact LogOut.noConfusion h
  · rw [if_neg h0] at h
    by_cases hinf : BF.IsInf z = true
    · rw [if_pos hinf] at h
      exact LogOut.noConfusion h
    · rw [if_neg hinf] at h
      rcases Cmp_mem z (BF.SetPrec (NewFloat false 1 0) (o.prec + 64)) with hc | hc | hc
      · rw [if_neg (by rw [hc]; norm_num), if_pos hc] at h
        exact logCore_ne_err _ _ _ _ _ _ _ _ _ h
      · rw [if_neg (by rw [hc]; norm_num), if_neg (by rw [hc]; norm_num),
          if_pos hc] at h
        exact LogOut.noConfusion h
      · rw [if_pos hc] at h
        exact logCore_ne_err _ _ _ _ _ _ _ _ _ h

/-- `logMain` panics exactly when the argument's sign bit is set. -/
theorem logMain_err_iff (piF : ℕ → BF) (fuel : ℕ) (o z : BF) :
    (∃ s, logMain piF fuel o z = LogOut.err s) ↔ z.Signbit = true := by
  constructor
  · rintro ⟨s, hs⟩
    cases hb : z.Signbit
    · exact absurd hs (logMain_not_err piF fuel o z hb s)
    · rfl
  · intro hsb
    refine ⟨"Log: argument is negative", ?_⟩
    simp only [logMain]
    rw [hsb]
    rfl

/-- `logMain` on `+0` returns negative infinity. -/
theorem logMain_zero (piF : ℕ → BF) (fuel : ℕ) (o z : BF)
    (hform : z.form = Form.zero) (hneg : z.neg = false) :
    ∃ r, logMain piF fuel o z = LogOut.out r ∧ r.form = Form.inf ∧
      r.neg = true := by
  refine ⟨BF.SetInf o true, ?_, rfl, rfl⟩
  simp only [logMain, BF.Signbit]
  rw [hneg]
  simp only [Bool.false_eq_true, if_false]
  rw [if_pos (by simp [BF.Sign, hform] : BF.Sign z = 0)]

/-- `logMain` on `+Inf` returns positive infinity. -/
theorem logMain_inf (piF : ℕ → BF) (fuel : ℕ) (o z : BF)
    (hform : z.form = Form.inf) (hneg : z.neg = false) :
    ∃ r, logMain piF fuel o z = LogOut.out r ∧ r.form = Form.inf ∧
      r.neg = false := by
  have hset : BF.Set o z =
      ⟨.inf, z.neg, 0, 0, (if o.prec = 0 then z.prec else o.prec), o.mode⟩ := by
    simp [BF.Set, hform]
  refine ⟨BF.Set o z, ?_, by rw [hset], by rw [hset]; exact hneg⟩
  simp only [logMain, BF.Signbit]
  rw [hneg]
  simp only [Bool.false_eq_true, if_false]
  rw [if_neg (by simp [BF.Sign, hform, hneg] : ¬(BF.Sign z = 0))]
  rw [if_pos (by simp [BF.IsInf, hform] : BF.IsInf z = true)]

/-- `logMain` on a normalised 1 returns exactly zero through the comparison
short-circuit. -/
theorem logMain_one (piF : ℕ → BF) (fuel : ℕ) (o : BF) (P : ℕ) (md : RMode)
    (hP : 1 ≤ P) :
    ∃ r, logMain piF fuel o ⟨.finite, false, 2 ^ (P - 1), 1, P, md⟩ =
      LogOut.out r ∧ r.form = Form.zero := by
  have hc := Cmp_norm_one P (o.prec + 64) hP (by omega) md RMode.toNearestEven
  refine ⟨BF.Set o gzero, ?_, rfl⟩
  simp only [logMain, BF.Signbit, Bool.false_eq_true, if_false]
  rw [if_neg (by simp [BF.Sign] : ¬(BF.Sign
    (⟨.finite, false, 2 ^ (P - 1), 1, P, md⟩ : BF) = 0))]
  rw [if_neg (by simp [BF.IsInf] : ¬(BF.IsInf
    (⟨.finite, false, 2 ^ (P - 1), 1, P, md⟩ : BF) = true))]
  rw [one_setPrec (o.prec + 64) (by omega)]
  rw [if_neg (by rw [hc]; norm_num), if_neg (by rw [hc]; norm_num), if_pos hc]

/-- C3: `Log(dst, z)` signals a terminating domain error (a panic, modelled
as `LogOut.err`) exactly when `z`'s sign bit is set — every negative `z`
including `-0` — and on the non-failing boundary inputs returns well-defined
values: `Log(dst, +0)` yields negative infinity, `Log(dst, +Inf)` yields
positive infinity, and `Log(dst, 1)` yields exactly zero, for every
destination, fuel, and value of the `pi` helper. -/
theorem c3_log_domain_error (piF : ℕ → BF) (fuel : ℕ) (o z : BF) :
    ((∃ s, Log piF fuel o z = LogOut.err s) ↔ z.Signbit = true) ∧
    (z.form = Form.zero → z.neg = false →
      ∃ r, Log piF fuel o z = LogOut.out r ∧ r.form = Form.inf ∧
        r.neg = true) ∧
    (z.form = Form.inf → z.neg = false →
      ∃ r, Log piF fuel o z = LogOut.out r ∧ r.form = Form.inf ∧
        r.neg = false) ∧
    (z.form = Form.finite → z.neg = false → z.mant = 2 ^ (z.prec - 1) →
      z.exp = 1 → 1 ≤ z.prec →
      ∃ r, Log piF fuel o z = LogOut.out r ∧ r.form = Form.zero) := by
  refine ⟨?_, ?_, ?_, ?_⟩
  · exact logMain_err_iff piF fuel _ z
  · intro h1 h2
    exact logMain_zero piF fuel _ z h1 h2
  · intro h1 h2
    exact logMain_inf piF fuel _ z h1 h2
  · intro h1 h2 h3 h4 h5
    obtain ⟨f, ng, m, e, P, md⟩ := z
    dsimp only at h1 h2 h3 h4 h5
    subst h1
    subst h2
    subst h3
    subst h4
    exact logMain_one piF fuel _ P md h5

/-- A concrete stand-in for the absent lowercase `pi` helper. -/
def c3PiStub : ℕ → BF := fun p => BF.SetPrec (NewFloat false 1 1) p

/-- A fresh zero destination of precision 53 for the C3 witness. -/
def c3Dst : BF := ⟨.zero, false, 0, 0, 53, .toNearestEven⟩

/-- The argument `z = -2` at precision 2 (sign bit set). -/
def c3NegZ : BF := ⟨.finite, true, 2, 2, 2, .toNearestEven⟩

theorem c3_log_domain_error_witness :
    ((∃ s, Log c3PiStub 1 c3Dst c3NegZ = LogOut.err s) ↔
      c3NegZ.Signbit = true) ∧
    (c3NegZ.form = Form.zero → c3NegZ.neg = false →
      ∃ r, Log c3PiStub 1 c3Dst c3NegZ = LogOut.out r ∧ r.form = Form.inf ∧
        r.neg = true) ∧
    (c3NegZ.form = Form.inf → c3NegZ.neg = false →
      ∃ r, Log c3PiStub 1 c3Dst c3NegZ = LogOut.out r ∧ r.form = Form.inf ∧
        r.neg = false) ∧
    (c3NegZ.form = Form.finite → c3NegZ.neg = false →
      c3NegZ.mant = 2 ^ (c3NegZ.prec - 1) → c3NegZ.exp = 1 →
      1 ≤ c3NegZ.prec →
      ∃ r, Log c3PiStub 1 c3Dst c3NegZ = LogOut.out r ∧
        r.form = Form.zero) :=
  c3_log_domain_error c3PiStub 1 c3Dst c3NegZ

end Bigfloat
